import Mathlib

set_option maxRecDepth 4096

/-!
Verification of the arqoii QOI codec core (crates/arqoii and crates/arqoii-types).

The Rust iterators are modelled as explicit step functions on state types;
`u8` values are `Nat` with explicit `% 256` where wrapping matters and `i8`
values are `Int` obtained by two's-complement reinterpretation.  Lazy iterator
output is captured by the inductive relation `Yields step state out`, stating
that repeatedly calling `step` from `state` produces exactly the items `out`
and then signals exhaustion.
-/

namespace Arqoii

/-! ### Byte / machine-integer helpers -/

/-- Reinterpret a `u8` value (a `Nat`, reduced `% 256`) as an `i8`
(two's complement), as Rust's `as i8` cast does. -/
def u8ToI8 (n : Nat) : Int :=
  if n % 256 < 128 then (n % 256 : Nat) else (n % 256 : Nat) - 256

/-- `x.wrapping_sub y` on `u8` values. -/
def u8Sub (x y : Nat) : Nat := (x % 256 + 256 - y % 256) % 256

/-- The low byte (`as u8` cast) of an `i8`-valued integer. -/
def i8Bits (x : Int) : Nat := (x % 256).toNat

/-- Wrap an integer into the `i8` range, as Rust's `i8` wrapping ops do. -/
def wrapI8 (z : Int) : Int := (z + 128) % 256 - 128

/-- `x.wrapping_add_signed d` on a `u8` value `x` and `i8` value `d`. -/
def u8AddSigned (x : Nat) (d : Int) : Nat := (((x % 256 : Nat) : Int) + d % 256).toNat % 256

/-! ### Pixel and coder state (`arqoii-types/src/lib.rs`) -/

/-- A single RGBA pixel; each channel is a `u8` (kept `< 256` via `Pixel.wf`). -/
structure Pixel where
  r : Nat
  g : Nat
  b : Nat
  a : Nat
deriving DecidableEq, Repr

/-- All four channels are in the `u8` range. -/
def Pixel.wf (p : Pixel) : Prop := p.r < 256 ∧ p.g < 256 ∧ p.b < 256 ∧ p.a < 256

instance (p : Pixel) : Decidable p.wf := by unfold Pixel.wf; infer_instance

/-- `Pixel::ZERO`. -/
def Pixel.zero : Pixel := ⟨0, 0, 0, 0⟩

/-- The starting previous pixel `(0, 0, 0, 255)` of `CoderState::default`. -/
def Pixel.start : Pixel := ⟨0, 0, 0, 255⟩

/-- `Pixel::pixel_hash`: `(3 r + 5 g + 7 b + 11 a) % 64`. -/
def Pixel.pixelHash (p : Pixel) : Nat :=
  (p.r * 3 + p.g * 5 + p.b * 7 + p.a * 11) % 64

/-- `CoderState`: previous pixel, 64-entry index table, pending run length. -/
structure CoderState where
  previous : Pixel
  index : List Pixel
  run : Nat
deriving DecidableEq, Repr

/-- `CoderState::default()`. -/
def CoderState.default : CoderState :=
  ⟨Pixel.start, List.replicate 64 Pixel.zero, 0⟩

/-! ### Header (`QoiHeader`) -/

inductive QoiChannels
  | rgb
  | rgba
deriving DecidableEq, Repr

/-- The discriminant byte of `QoiChannels` (`Rgb = 3`, `Rgba = 4`). -/
def QoiChannels.toByte : QoiChannels → Nat
  | .rgb => 3
  | .rgba => 4

inductive QoiColorSpace
  | sRgbWithLinearAlpha
  | allChannelsLinear
deriving DecidableEq, Repr

/-- The discriminant byte of `QoiColorSpace` (`SRgbWithLinearAlpha = 0`,
`AllChannelsLinear = 1`). -/
def QoiColorSpace.toByte : QoiColorSpace → Nat
  | .sRgbWithLinearAlpha => 0
  | .allChannelsLinear => 1

/-- `QoiHeader`. -/
structure QoiHeader where
  width : Nat
  height : Nat
  channels : QoiChannels
  color_space : QoiColorSpace
deriving DecidableEq, Repr

/-- Width and height are `u32` values. -/
def QoiHeader.wf (h : QoiHeader) : Prop := h.width < 2 ^ 32 ∧ h.height < 2 ^ 32

instance (h : QoiHeader) : Decidable h.wf := by unfold QoiHeader.wf; infer_instance

/-- `QOI_MAGIC`, the bytes of the string `qoif`. -/
def QOI_MAGIC : List Nat := [0x71, 0x6f, 0x69, 0x66]

/-- `QOI_FOOTER`. -/
def QOI_FOOTER : List Nat := [0, 0, 0, 0, 0, 0, 0, 1]

/-- `u32::to_be_bytes`. -/
def u32ToBeBytes (w : Nat) : List Nat :=
  [w / 2 ^ 24 % 256, w / 2 ^ 16 % 256, w / 2 ^ 8 % 256, w % 256]

/-- `u32::from_be_bytes`. -/
def u32FromBeBytes (b0 b1 b2 b3 : Nat) : Nat :=
  b0 * 2 ^ 24 + b1 * 2 ^ 16 + b2 * 2 ^ 8 + b3

/-- `QoiHeader::to_bytes`: magic, width (BE), height (BE), channels,
color space — 14 bytes. -/
def QoiHeader.toBytes (h : QoiHeader) : List Nat :=
  QOI_MAGIC ++ u32ToBeBytes h.width ++ u32ToBeBytes h.height ++
    [h.channels.toByte, h.color_space.toByte]

/-! ### Chunks and their serialization -/

/-- `QoiChunk`: the six QOI opcodes with semantic payloads. -/
inductive QoiChunk
  | rgb (r g b : Nat)
  | rgba (r g b a : Nat)
  | index (idx : Nat)
  | diff (dr dg db : Int)
  | luma (dg dr_dg db_dg : Int)
  | run (run : Nat)
deriving DecidableEq, Repr

/-- Payload ranges of a chunk as produced by the encoder and decoder
(the ranges documented on the `QoiChunk` variants). -/
def QoiChunk.wfRange : QoiChunk → Prop
  | .rgb _ _ _ => True
  | .rgba _ _ _ _ => True
  | .index idx => idx < 64
  | .diff dr dg db => -2 ≤ dr ∧ dr ≤ 1 ∧ -2 ≤ dg ∧ dg ≤ 1 ∧ -2 ≤ db ∧ db ≤ 1
  | .luma dg dr_dg db_dg =>
      -32 ≤ dg ∧ dg ≤ 31 ∧ -8 ≤ dr_dg ∧ dr_dg ≤ 7 ∧ -8 ≤ db_dg ∧ db_dg ≤ 7
  | .run n => 1 ≤ n ∧ n ≤ 62

instance (c : QoiChunk) : Decidable c.wfRange := by
  unfold QoiChunk.wfRange; cases c <;> infer_instance

/-- `QoiChunk::write_to_chunk_buffer`: the 1–5 serialized bytes of a chunk.
Rust's `run - 1` on `u8` is modelled by the wrapping `(run + 255) % 256`. -/
def QoiChunk.toBytes : QoiChunk → List Nat
  | .rgb r g b => [0b11111110, r, g, b]
  | .rgba r g b a => [0b11111111, r, g, b, a]
  | .index idx => [0b00111111 &&& idx]
  | .diff dr dg db =>
      [0b01000000 |||
        (0b00111111 &&&
          ((0b11 &&& i8Bits (dr + 2)) <<< 4 ||| (0b11 &&& i8Bits (dg + 2)) <<< 2 |||
            (0b11 &&& i8Bits (db + 2))))]
  | .luma dg dr_dg db_dg =>
      [0b10000000 ||| (0b00111111 &&& i8Bits (dg + 32)),
        (0b1111 &&& i8Bits (dr_dg + 8)) <<< 4 ||| (0b1111 &&& i8Bits (db_dg + 8))]
  | .run n => [0b11000000 ||| (n + 255) % 256]

/-! ### List-level chunk decoder

`QoiChunkDecoder::next` dispatches on the first byte; here the byte source is
a plain list (the `PeekN` buffered version is defined later and related to
this one through the observable byte sequence).  Each failed mid-chunk
`next()?` has consumed all remaining bytes, hence the `(none, [])` results. -/

/-- One step of chunk decoding on a plain byte list: returns the decoded chunk
(or `none` at exhaustion or on footer recognition) and the remaining bytes. -/
def chunkDecList : List Nat → Option QoiChunk × List Nat
  | [] => (none, [])
  | init :: rest =>
    if init = 0b11111111 then
      match rest with
      | r :: g :: b :: a :: rest2 => (some (.rgba r g b a), rest2)
      | _ => (none, [])
    else if init = 0b11111110 then
      match rest with
      | r :: g :: b :: rest2 => (some (.rgb r g b), rest2)
      | _ => (none, [])
    else if init >>> 6 = 0b00 then
      if init = 0 ∧ rest.take 7 = QOI_FOOTER.drop 1 then
        (none, rest)
      else
        (some (.index (init &&& 0b00111111)), rest)
    else if init >>> 6 = 0b01 then
      (some (.diff ((((init >>> 4) &&& 0b11 : Nat) : Int) - 2)
        ((((init >>> 2) &&& 0b11 : Nat) : Int) - 2)
        (((init &&& 0b11 : Nat) : Int) - 2)), rest)
    else if init >>> 6 = 0b10 then
      match rest with
      | nb :: rest2 =>
        (some (.luma (((init &&& 0b00111111 : Nat) : Int) - 32)
          ((((nb >>> 4) &&& 0b1111 : Nat) : Int) - 8)
          (((nb &&& 0b1111 : Nat) : Int) - 8)), rest2)
      | [] => (none, [])
    else
      (some (.run ((init &&& 0b00111111) + 1)), rest)

/-! ### Bounded bitwise arithmetic facts (byte-level, settled by evaluation) -/

theorem shr6_eq_div : ∀ n < 256, n >>> 6 = n / 64 := by decide

theorem band63_eq_mod : ∀ n < 256, n &&& 63 = n % 64 := by decide

theorem band63_small : ∀ n < 64, 63 &&& n = n := by decide

theorem lor64_small : ∀ n < 64, 64 ||| n = 64 + n := by decide

theorem lor128_small : ∀ n < 64, 128 ||| n = 128 + n := by decide

theorem lor192_small : ∀ n < 64, 192 ||| n = 192 + n := by decide

theorem diff_pack : ∀ a < 4, ∀ b < 4, ∀ c < 4,
    ((3 &&& a) <<< 4 ||| (3 &&& b) <<< 2 ||| (3 &&& c)) = 16 * a + 4 * b + c := by
  decide

theorem luma_pack : ∀ x < 16, ∀ y < 16,
    ((15 &&& x) <<< 4 ||| (15 &&& y)) = 16 * x + y := by
  decide

theorem shr4_band3 : ∀ n < 256, (n >>> 4) &&& 3 = n / 16 % 4 := by decide

theorem shr2_band3 : ∀ n < 256, (n >>> 2) &&& 3 = n / 4 % 4 := by decide

theorem band3_eq_mod : ∀ n < 256, n &&& 3 = n % 4 := by decide

theorem shr4_band15 : ∀ n < 256, (n >>> 4) &&& 15 = n / 16 % 16 := by decide

theorem band15_eq_mod : ∀ n < 256, n &&& 15 = n % 16 := by decide

theorem i8Bits_of_range (z : Int) (h0 : 0 ≤ z) (h1 : z < 256) : (i8Bits z : Int) = z := by
  unfold i8Bits
  rw [Int.emod_eq_of_lt h0 h1]
  exact Int.toNat_of_nonneg h0

/-! ### Serialized chunk bytes -/

/-- The serialized bytes of an in-range chunk, in arithmetic form. -/
theorem toBytes_diff (dr dg db : Int)
    (h : (QoiChunk.diff dr dg db).wfRange) :
    (QoiChunk.diff dr dg db).toBytes =
      [64 + (16 * (dr + 2).toNat + 4 * (dg + 2).toNat + (db + 2).toNat)] := by
  obtain ⟨h1, h2, h3, h4, h5, h6⟩ := h
  have er : (i8Bits (dr + 2) : Int) = dr + 2 := i8Bits_of_range _ (by omega) (by omega)
  have eg : (i8Bits (dg + 2) : Int) = dg + 2 := i8Bits_of_range _ (by omega) (by omega)
  have eb : (i8Bits (db + 2) : Int) = db + 2 := i8Bits_of_range _ (by omega) (by omega)
  have hr : i8Bits (dr + 2) = (dr + 2).toNat := by omega
  have hg : i8Bits (dg + 2) = (dg + 2).toNat := by omega
  have hb : i8Bits (db + 2) = (db + 2).toNat := by omega
  have br : (dr + 2).toNat < 4 := by omega
  have bg : (dg + 2).toNat < 4 := by omega
  have bb : (db + 2).toNat < 4 := by omega
  simp only [QoiChunk.toBytes, hr, hg, hb]
  rw [diff_pack _ br _ bg _ bb, band63_small _ (by omega), lor64_small _ (by omega)]

theorem toBytes_luma (dg dr_dg db_dg : Int)
    (h : (QoiChunk.luma dg dr_dg db_dg).wfRange) :
    (QoiChunk.luma dg dr_dg db_dg).toBytes =
      [128 + (dg + 32).toNat, 16 * (dr_dg + 8).toNat + (db_dg + 8).toNat] := by
  obtain ⟨h1, h2, h3, h4, h5, h6⟩ := h
  have e1 : (i8Bits (dg + 32) : Int) = dg + 32 := i8Bits_of_range _ (by omega) (by omega)
  have e2 : (i8Bits (dr_dg + 8) : Int) = dr_dg + 8 := i8Bits_of_range _ (by omega) (by omega)
  have e3 : (i8Bits (db_dg + 8) : Int) = db_dg + 8 := i8Bits_of_range _ (by omega) (by omega)
  have q1 : i8Bits (dg + 32) = (dg + 32).toNat := by omega
  have q2 : i8Bits (dr_dg + 8) = (dr_dg + 8).toNat := by omega
  have q3 : i8Bits (db_dg + 8) = (db_dg + 8).toNat := by omega
  simp only [QoiChunk.toBytes, q1, q2, q3]
  rw [luma_pack _ (by omega) _ (by omega), band63_small _ (by omega),
    lor128_small _ (by omega)]

theorem toBytes_run (n : Nat) (h : (QoiChunk.run n).wfRange) :
    (QoiChunk.run n).toBytes = [192 + (n - 1)] := by
  obtain ⟨h1, h2⟩ := h
  have : (n + 255) % 256 = n - 1 := by omega
  simp only [QoiChunk.toBytes, this]
  exact congrArg (fun b => [b]) (lor192_small _ (by omega))

theorem toBytes_index (idx : Nat) (h : (QoiChunk.index idx).wfRange) :
    (QoiChunk.index idx).toBytes = [idx] := by
  simp only [QoiChunk.toBytes]
  exact congrArg (fun b => [b]) (band63_small _ h)

/-- The first serialized byte of an in-range chunk other than `INDEX(0)`
is nonzero. -/
theorem toBytes_head_ne_zero (c : QoiChunk) (hwf : c.wfRange)
    (hne : c ≠ .index 0) : ∃ b l, c.toBytes = b :: l ∧ b ≠ 0 := by
  cases c with
  | rgb r g b => exact ⟨254, _, rfl, by omega⟩
  | rgba r g b a => exact ⟨255, _, rfl, by omega⟩
  | index idx =>
    rw [toBytes_index _ hwf]
    exact ⟨idx, [], rfl, fun h => hne (by rw [h])⟩
  | diff dr dg db =>
    rw [toBytes_diff _ _ _ hwf]
    exact ⟨_, [], rfl, by omega⟩
  | luma dg dr_dg db_dg =>
    rw [toBytes_luma _ _ _ hwf]
    exact ⟨_, [_], rfl, by omega⟩
  | run n =>
    rw [toBytes_run _ hwf]
    exact ⟨_, [], rfl, by omega⟩

/-- Decoding the serialized bytes of an in-range chunk recovers the chunk,
except that an `INDEX(0)` byte followed by the seven footer tail bytes is
taken as the footer (excluded by hypothesis). -/
theorem chunkDecList_toBytes (c : QoiChunk) (rest : List Nat) (hwf : c.wfRange)
    (hftr : c = .index 0 → rest.take 7 ≠ QOI_FOOTER.drop 1) :
    chunkDecList (c.toBytes ++ rest) = (some c, rest) := by
  cases c with
  | rgb r g b => rfl
  | rgba r g b a => rfl
  | index idx =>
    rw [toBytes_index _ hwf]
    have h64 : idx < 64 := hwf
    show chunkDecList (idx :: rest) = _
    simp only [chunkDecList]
    rw [if_neg (by omega), if_neg (by omega), if_pos (by rw [shr6_eq_div _ (by omega)]; omega)]
    by_cases h0 : idx = 0
    · subst h0
      rw [if_neg (by rintro ⟨-, hf⟩; exact hftr rfl hf)]
      simp [band63_eq_mod 0 (by omega)]
    · rw [if_neg (by rintro ⟨h, -⟩; exact h0 h)]
      rw [band63_eq_mod _ (by omega), Nat.mod_eq_of_lt h64]
  | diff dr dg db =>
    rw [toBytes_diff _ _ _ hwf]
    obtain ⟨h1, h2, h3, h4, h5, h6⟩ := hwf
    set a := (dr + 2).toNat with ha
    set b := (dg + 2).toNat with hb
    set e := (db + 2).toNat with he
    have hab : a < 4 := by omega
    have hbb : b < 4 := by omega
    have heb : e < 4 := by omega
    have hby : 64 + (16 * a + 4 * b + e) < 256 := by omega
    show chunkDecList ((64 + (16 * a + 4 * b + e)) :: rest) = _
    simp only [chunkDecList]
    rw [if_neg (by omega), if_neg (by omega),
      if_neg (by rw [shr6_eq_div _ hby]; omega),
      if_pos (by rw [shr6_eq_div _ hby]; omega)]
    rw [shr4_band3 _ hby, shr2_band3 _ hby, band3_eq_mod _ hby]
    have da : (64 + (16 * a + 4 * b + e)) / 16 % 4 = a := by omega
    have db2 : (64 + (16 * a + 4 * b + e)) / 4 % 4 = b := by omega
    have de : (64 + (16 * a + 4 * b + e)) % 4 = e := by omega
    rw [da, db2, de]
    have ea : (a : Int) - 2 = dr := by omega
    have eb2 : (b : Int) - 2 = dg := by omega
    have ee : (e : Int) - 2 = db := by omega
    rw [ea, eb2, ee]
  | luma dg dr_dg db_dg =>
    rw [toBytes_luma _ _ _ hwf]
    obtain ⟨h1, h2, h3, h4, h5, h6⟩ := hwf
    set d := (dg + 32).toNat with hd
    set x := (dr_dg + 8).toNat with hx
    set y := (db_dg + 8).toNat with hy
    have hdb : d < 64 := by omega
    have hxb : x < 16 := by omega
    have hyb : y < 16 := by omega
    have hb1 : 128 + d < 256 := by omega
    have hb2 : 16 * x + y < 256 := by omega
    show chunkDecList ((128 + d) :: (16 * x + y) :: rest) = _
    simp only [chunkDecList]
    rw [if_neg (by omega), if_neg (by omega),
      if_neg (by rw [shr6_eq_div _ hb1]; omega),
      if_neg (by rw [shr6_eq_div _ hb1]; omega),
      if_pos (by rw [shr6_eq_div _ hb1]; omega)]
    rw [band63_eq_mod _ hb1, shr4_band15 _ hb2, band15_eq_mod _ hb2]
    have e1 : (128 + d) % 64 = d := by omega
    have e2 : (16 * x + y) / 16 % 16 = x := by omega
    have e3 : (16 * x + y) % 16 = y := by omega
    rw [e1, e2, e3]
    have f1 : (d : Int) - 32 = dg := by omega
    have f2 : (x : Int) - 8 = dr_dg := by omega
    have f3 : (y : Int) - 8 = db_dg := by omega
    rw [f1, f2, f3]
  | run n =>
    rw [toBytes_run _ hwf]
    obtain ⟨h1, h2⟩ := hwf
    have hby : 192 + (n - 1) < 256 := by omega
    show chunkDecList ((192 + (n - 1)) :: rest) = _
    simp only [chunkDecList]
    rw [if_neg (by omega), if_neg (by omega),
      if_neg (by rw [shr6_eq_div _ hby]; omega),
      if_neg (by rw [shr6_eq_div _ hby]; omega),
      if_neg (by rw [shr6_eq_div _ hby]; omega)]
    rw [band63_eq_mod _ hby]
    have : (192 + (n - 1)) % 64 + 1 = n := by omega
    rw [this]

/-! ### The `PeekN` look-ahead adapter (`arqoii/src/iterator_helper.rs`)

The upstream iterator is modelled as the list of items it has yet to
produce; the `[Option<Item>; N]` buffer is a list of options of length `N`.  -/

structure PeekN (N : Nat) (α : Type) where
  iter : List α
  peek : List (Option α)
deriving DecidableEq, Repr

/-- `PeekN::new`. -/
def PeekN.new (N : Nat) (l : List α) : PeekN N α := ⟨l, List.replicate N none⟩

/-- `self.peek.iter_mut().find_map(|elem| elem.take())`: removes and returns
the first `some` of the slot list. -/
def takeFirstSome : List (Option α) → Option (α × List (Option α))
  | [] => none
  | none :: rest =>
    match takeFirstSome rest with
    | none => none
    | some (a, rest2) => some (a, none :: rest2)
  | some a :: rest => some (a, none :: rest)

/-- `PeekN::next`: first `some` of the buffer, else the upstream iterator. -/
def PeekN.next (s : PeekN N α) : Option (α × PeekN N α) :=
  match takeFirstSome s.peek with
  | some (a, pk) => some (a, ⟨s.iter, pk⟩)
  | none =>
    match s.iter with
    | [] => none
    | x :: it => some (x, ⟨it, s.peek⟩)

/-- The slot-filling `flat_map` body of `PeekN::peek`: every `none` slot is
filled, in order, from the upstream iterator (which may itself be exhausted). -/
def fillSlots : List (Option α) → List α → List (Option α) × List α
  | [], it => ([], it)
  | some a :: rest, it =>
    match fillSlots rest it with
    | (r, it2) => (some a :: r, it2)
  | none :: rest, [] =>
    match fillSlots rest [] with
    | (r, it2) => (none :: r, it2)
  | none :: rest, x :: it =>
    match fillSlots rest it with
    | (r, it2) => (some x :: r, it2)

/-- Rotate the first remaining peeked value to the front and fill the buffer
from upstream (the body of `PeekN::peek` before the count check). -/
def peekCore (pk : List (Option α)) (it : List α) : List (Option α) × List α :=
  fillSlots (pk.rotateLeft (pk.findIdx Option.isSome)) it

/-- `PeekN::peek`: rotate the first remaining peeked value to the front, fill
the buffer from upstream, and return the `N` buffered values if the buffer
could be filled completely. -/
def PeekN.peekFn (s : PeekN N α) : Option (List α) × PeekN N α :=
  (if ((peekCore s.peek s.iter).1.filterMap id).length = N
      then some ((peekCore s.peek s.iter).1.filterMap id) else none,
    ⟨(peekCore s.peek s.iter).2, (peekCore s.peek s.iter).1⟩)

/-- The byte sequence still observable through a `PeekN`: buffered values in
slot order, then the upstream remainder. -/
def pnObs (s : PeekN N α) : List α := s.peek.filterMap id ++ s.iter

/-- Buffer shape invariant of all reachable `PeekN` states: the `some` slots
are contiguous. -/
def SlotShape (l : List (Option α)) : Prop :=
  ∃ (i : Nat) (xs : List α) (j : Nat),
    l = List.replicate i none ++ xs.map some ++ List.replicate j none

/-- Invariant of reachable `PeekN` states. -/
def PNInv (s : PeekN N α) : Prop := s.peek.length = N ∧ SlotShape s.peek

theorem pnInv_new (N : Nat) (l : List α) : PNInv (PeekN.new N l) :=
  ⟨by simp [PeekN.new], ⟨N, [], 0, by simp [PeekN.new]⟩⟩

theorem pnObs_new (N : Nat) (l : List α) : pnObs (PeekN.new N l) = l := by
  unfold pnObs PeekN.new
  simp only []
  induction N with
  | zero => simp
  | succ n ih =>
    simpa [List.replicate_succ] using ih

/-! #### takeFirstSome lemmas -/

theorem takeFirstSome_replicate_none (k : Nat) :
    takeFirstSome (List.replicate k (none : Option α)) = none := by
  induction k with
  | zero => rfl
  | succ n ih => simp [List.replicate_succ, takeFirstSome, ih]

theorem takeFirstSome_none_front (i : Nat) (l : List (Option α)) :
    takeFirstSome (List.replicate i none ++ l) =
      (takeFirstSome l).map (fun p => (p.1, List.replicate i none ++ p.2)) := by
  induction i with
  | zero =>
    simp only [List.replicate_zero, List.nil_append]
    cases takeFirstSome l <;> simp
  | succ n ih =>
    simp only [List.replicate_succ, List.cons_append, takeFirstSome, List.append_eq]
    rw [ih]
    cases takeFirstSome l with
    | none => rfl
    | some p => simp [List.replicate_succ]

theorem takeFirstSome_eq_none (l : List (Option α)) :
    takeFirstSome l = none ↔ l.filterMap id = [] := by
  induction l with
  | nil => simp [takeFirstSome]
  | cons hd tl ih =>
    cases hd with
    | none =>
      simp only [takeFirstSome, List.filterMap_cons_none]
      cases h : takeFirstSome tl with
      | none => simpa using ih.mp h
      | some p =>
        obtain ⟨a, r⟩ := p
        constructor
        · intro hc; exact absurd hc (by simp)
        · intro hf
          rw [ih.mpr hf] at h
          exact absurd h (by simp)
    | some a => simp [takeFirstSome]

theorem takeFirstSome_some (l : List (Option α)) (a : α) (l2 : List (Option α))
    (h : takeFirstSome l = some (a, l2)) :
    l.filterMap id = a :: l2.filterMap id ∧ l2.length = l.length := by
  induction l generalizing a l2 with
  | nil => simp [takeFirstSome] at h
  | cons hd tl ih =>
    cases hd with
    | none =>
      simp only [takeFirstSome] at h
      cases htl : takeFirstSome tl with
      | none => rw [htl] at h; simp at h
      | some p =>
        rw [htl] at h
        simp only [Option.some.injEq] at h
        obtain ⟨h1, h2⟩ := Prod.mk.injEq .. ▸ h
        obtain ⟨e1, e2⟩ := ih p.1 p.2 (by rw [htl])
        subst h1
        rw [← h2]
        simp [e1, e2]
    | some b =>
      simp only [takeFirstSome, Option.some.injEq] at h
      obtain ⟨h1, h2⟩ := Prod.mk.injEq .. ▸ h
      subst h1
      rw [← h2]
      simp

theorem replicate_append_cons (i : Nat) (a : α) (X : List α) :
    List.replicate i a ++ a :: X = a :: (List.replicate i a ++ X) := by
  induction i with
  | zero => rfl
  | succ n ih => simp [List.replicate_succ, ih]

theorem takeFirstSome_shape (l : List (Option α)) (a : α) (l2 : List (Option α))
    (hs : SlotShape l) (h : takeFirstSome l = some (a, l2)) : SlotShape l2 := by
  obtain ⟨i, xs, j, rfl⟩ := hs
  rw [List.append_assoc] at h
  cases xs with
  | nil =>
    rw [takeFirstSome_none_front] at h
    rw [show (List.map some [] : List (Option α)) = [] from rfl, List.nil_append,
      takeFirstSome_replicate_none] at h
    simp at h
  | cons x xs2 =>
    rw [takeFirstSome_none_front] at h
    simp only [List.map_cons, List.cons_append, takeFirstSome, Option.map_some] at h
    obtain ⟨h1, h2⟩ := Prod.mk.injEq .. ▸ (Option.some.injEq .. ▸ h)
    refine ⟨i + 1, xs2, j, ?_⟩
    rw [← h2]
    simp only [List.append_eq, List.replicate_succ, List.cons_append, List.append_assoc]
    exact replicate_append_cons i none _

/-! #### PeekN.next lemmas -/

theorem pnNext_eq_none (s : PeekN N α) : s.next = none ↔ pnObs s = [] := by
  unfold PeekN.next pnObs
  cases h : takeFirstSome s.peek with
  | some p => simp [(takeFirstSome_some _ _ _ h).1]
  | none =>
    rw [takeFirstSome_eq_none] at h
    cases hit : s.iter <;> simp [h, hit]

theorem pnNext_some (s : PeekN N α) (a : α) (s2 : PeekN N α)
    (h : s.next = some (a, s2)) :
    pnObs s = a :: pnObs s2 ∧ (PNInv s → PNInv s2) := by
  unfold PeekN.next at h
  cases htf : takeFirstSome s.peek with
  | some p =>
    rw [htf] at h
    simp only [Option.some.injEq] at h
    obtain ⟨h1, h2⟩ := Prod.mk.injEq .. ▸ h
    subst h1
    obtain ⟨e1, e2⟩ := takeFirstSome_some _ _ _ htf
    constructor
    · rw [← h2]; simp [pnObs, e1]
    · rintro ⟨hl, hs⟩
      rw [← h2]
      exact ⟨by simpa [e2] using hl, takeFirstSome_shape _ _ _ hs htf⟩
  | none =>
    rw [htf] at h
    have hfm := (takeFirstSome_eq_none s.peek).mp htf
    cases hit : s.iter with
    | nil => rw [hit] at h; simp at h
    | cons x it =>
      rw [hit] at h
      simp only [Option.some.injEq] at h
      obtain ⟨h1, h2⟩ := Prod.mk.injEq .. ▸ h
      subst h1
      constructor
      · rw [← h2]; simp [pnObs, hfm, hit]
      · rintro ⟨hl, hs⟩
        rw [← h2]
        exact ⟨hl, hs⟩

/-! #### PeekN.peekFn lemmas -/

theorem findIdx_isSome_replicate_none (n : Nat) :
    (List.replicate n (none : Option α)).findIdx Option.isSome = n := by
  induction n with
  | zero => rfl
  | succ m ih => simp [List.replicate_succ, List.findIdx_cons, ih]

theorem findIdx_isSome_shape (i : Nat) (x : α) (l : List (Option α)) :
    (List.replicate i none ++ some x :: l).findIdx Option.isSome = i := by
  induction i with
  | zero => simp [List.findIdx_cons]
  | succ m ih => simp [List.replicate_succ, List.findIdx_cons, ih]

theorem rotateLeft_of_lt (l : List α) (n : Nat) (h : n < l.length) :
    l.rotateLeft n = l.drop n ++ l.take n := by
  unfold List.rotateLeft
  by_cases hle : l.length ≤ 1
  · have : n = 0 := by omega
    subst this
    simp
  · simp only [if_neg hle]
    rw [Nat.mod_eq_of_lt h]

theorem rotateLeft_length_self (l : List α) : l.rotateLeft l.length = l := by
  unfold List.rotateLeft
  by_cases hle : l.length ≤ 1
  · simp [if_pos hle]
  · simp only [if_neg hle]
    rw [Nat.mod_self]
    simp

theorem fillSlots_somes (xs : List α) (L : List (Option α)) (it : List α) :
    fillSlots (xs.map some ++ L) it =
      ((xs.map some ++ (fillSlots L it).1), (fillSlots L it).2) := by
  induction xs with
  | nil => simp
  | cons x xs2 ih =>
    simp only [List.map_cons, List.cons_append, fillSlots, List.append_eq, ih]

theorem fillSlots_replicate_none (k : Nat) (it : List α) :
    fillSlots (List.replicate k none) it =
      ((it.take k).map some ++ List.replicate (k - it.length) none, it.drop k) := by
  induction k generalizing it with
  | zero => simp [fillSlots]
  | succ m ih =>
    cases it with
    | nil =>
      simp only [List.replicate_succ, fillSlots, ih]
      simp [List.replicate_succ]
    | cons x it2 =>
      simp only [List.replicate_succ, fillSlots, ih]
      simp [List.replicate_succ]

theorem filterMap_map_some_append (xs : List α) (m : Nat) :
    (xs.map some ++ List.replicate m none).filterMap id = xs := by
  induction xs with
  | nil =>
    simp only [List.map_nil, List.nil_append]
    induction m with
    | zero => rfl
    | succ k ih => simpa [List.replicate_succ] using ih
  | cons x xs2 ih => simpa using ih

/-- Dropping a replicate prefix. -/
theorem drop_replicate_append (i : Nat) (a : α) (t : List α) :
    (List.replicate i a ++ t).drop i = t := by
  induction i with
  | zero => simp
  | succ m ih => simpa [List.replicate_succ] using ih

/-- Taking a replicate prefix. -/
theorem take_replicate_append (i : Nat) (a : α) (t : List α) :
    (List.replicate i a ++ t).take i = List.replicate i a := by
  induction i with
  | zero => simp
  | succ m ih => simp [List.replicate_succ, ih]

theorem rotateLeft_replicate (n k : Nat) (a : α) :
    (List.replicate n a).rotateLeft k = List.replicate n a := by
  rcases Nat.lt_or_ge n 2 with h | h
  · interval_cases n <;> rfl
  · unfold List.rotateLeft
    have hn : (List.replicate n a).length = n := by simp
    rw [hn, if_neg (by omega)]
    show (List.replicate n a).drop (k % n) ++ (List.replicate n a).take (k % n) =
      List.replicate n a
    rw [List.drop_replicate, List.take_replicate, ← List.replicate_add]
    have hk : k % n < n := Nat.mod_lt _ (by omega)
    congr 1
    omega

/-- After rotation, a shape-invariant buffer is its `some` values followed by
`none` slots. -/
theorem rotate_shape (i : Nat) (xs : List α) (j : Nat) :
    (List.replicate i none ++ xs.map some ++ List.replicate j none).rotateLeft
        ((List.replicate i none ++ xs.map some ++ List.replicate j none).findIdx
          Option.isSome) =
      xs.map some ++ List.replicate (j + i) none := by
  cases xs with
  | nil =>
    have e1 : (List.replicate i none ++ List.map some [] ++ List.replicate j none
        : List (Option α)) = List.replicate (i + j) none := by
      rw [show (List.map some [] : List (Option α)) = [] from rfl, List.append_nil,
        ← List.replicate_add]
    rw [e1, findIdx_isSome_replicate_none, rotateLeft_replicate]
    simp only [List.map_nil, List.nil_append]
    rw [Nat.add_comm]
  | cons x xs2 =>
    rw [List.append_assoc, List.map_cons, List.cons_append, findIdx_isSome_shape]
    have hlt : i < (List.replicate i none ++ (some x :: (xs2.map some ++
        List.replicate j none))).length := by simp
    rw [rotateLeft_of_lt _ _ hlt, drop_replicate_append, take_replicate_append]
    rw [show some x :: (xs2.map some ++ List.replicate j none) ++
        List.replicate i none = some x :: (xs2.map some ++
        (List.replicate j none ++ List.replicate i none)) from (by simp),
      ← List.replicate_add]
    simp

/-- Specification of `PeekN::peek` on shape-invariant states: the observable
sequence is unchanged, the invariant is preserved, and the result is the next
`N` observable items exactly when at least `N` remain. -/
theorem pnPeek_spec (s : PeekN N α) (hinv : PNInv s) :
    pnObs (s.peekFn).2 = pnObs s ∧ PNInv (s.peekFn).2 ∧
      (s.peekFn).1 =
        if N ≤ (pnObs s).length then some ((pnObs s).take N) else none := by
  obtain ⟨hlen, i, xs, j, hpeek⟩ := hinv
  have hN : i + xs.length + j = N := by
    rw [← hlen, hpeek]; simp; omega
  have hobs : pnObs s = xs ++ s.iter := by
    unfold pnObs
    rw [hpeek, List.append_assoc]
    have hfm : (List.replicate i (none : Option α) ++ (xs.map some ++
        List.replicate j none)).filterMap id = (xs.map some ++
        List.replicate j none).filterMap id := by
      induction i with
      | zero => simp
      | succ m ih => simpa [List.replicate_succ] using ih
    rw [hfm, filterMap_map_some_append]
  have hcore : peekCore s.peek s.iter =
      (((xs ++ s.iter.take (j + i)).map some ++
        List.replicate ((j + i) - s.iter.length) none), s.iter.drop (j + i)) := by
    unfold peekCore
    rw [hpeek, rotate_shape, fillSlots_somes, fillSlots_replicate_none]
    simp only []
    rw [← List.append_assoc, ← List.map_append]
  set m := j + i with hm
  have hvals : ((peekCore s.peek s.iter).1.filterMap id) = xs ++ s.iter.take m := by
    rw [hcore]
    exact filterMap_map_some_append _ _
  refine ⟨?_, ⟨?_, ?_⟩, ?_⟩
  · show pnObs (⟨(peekCore s.peek s.iter).2, (peekCore s.peek s.iter).1⟩ : PeekN N α)
      = pnObs s
    rw [hobs]
    show (peekCore s.peek s.iter).1.filterMap id ++ (peekCore s.peek s.iter).2 =
      xs ++ s.iter
    rw [hvals, hcore]
    show xs ++ List.take m s.iter ++ List.drop m s.iter = xs ++ s.iter
    rw [List.append_assoc, List.take_append_drop]
  · show (peekCore s.peek s.iter).1.length = N
    rw [hcore]
    simp only [List.length_append, List.length_map, List.length_take,
      List.length_replicate]
    omega
  · show SlotShape (peekCore s.peek s.iter).1
    rw [hcore]
    exact ⟨0, xs ++ s.iter.take m, m - s.iter.length, by simp⟩
  · show (if ((peekCore s.peek s.iter).1.filterMap id).length = N
        then some ((peekCore s.peek s.iter).1.filterMap id) else none) = _
    rw [hvals]
    have hlv : (xs ++ s.iter.take m).length = xs.length + min m s.iter.length := by
      simp
    by_cases hc : m ≤ s.iter.length
    · rw [if_pos (by rw [hlv]; omega), if_pos (by rw [hobs]; simp; omega)]
      rw [hobs]
      have htake : (xs ++ s.iter).take (xs.length + m) = xs ++ s.iter.take m :=
        List.take_append m
      have hNe : xs.length + m = N := by omega
      rw [hNe] at htake
      rw [htake]
    · rw [if_neg (by rw [hlv]; omega), if_neg (by rw [hobs]; simp; omega)]

/-! ### Iterator output relation -/

/-- `Yields step s out`: repeatedly invoking the step function from state `s`
produces exactly the items `out` and then reports exhaustion. -/
inductive Yields {σ α : Type} (step : σ → Option α × σ) : σ → List α → Prop
  | nil : ∀ {s s2}, step s = (none, s2) → Yields step s []
  | cons : ∀ {s a s2 l}, step s = (some a, s2) → Yields step s2 l →
      Yields step s (a :: l)

theorem yields_deterministic {σ α : Type} (step : σ → Option α × σ) (s : σ)
    (l1 l2 : List α) (h1 : Yields step s l1) (h2 : Yields step s l2) : l1 = l2 := by
  induction h1 generalizing l2 with
  | nil hs =>
    cases h2 with
    | nil hs2 => rfl
    | cons hs2 _ => rw [hs] at hs2; cases hs2
  | cons hs _ ih =>
    cases h2 with
    | nil hs2 => rw [hs] at hs2; cases hs2
    | cons hs2 htl2 =>
      rw [hs] at hs2
      obtain ⟨e1, e2⟩ := Prod.mk.injEq .. ▸ hs2
      cases e1
      rw [ih _ (e2 ▸ htl2)]

/-! #### Convenient forms of the PeekN next lemmas -/

theorem pnNext_of_obs_nil (s : PeekN N α) (h : pnObs s = []) : s.next = none :=
  (pnNext_eq_none s).mpr h

theorem pnNext_of_obs_cons (s : PeekN N α) (a : α) (l : List α)
    (h : pnObs s = a :: l) (hinv : PNInv s) :
    ∃ s2, s.next = some (a, s2) ∧ pnObs s2 = l ∧ PNInv s2 := by
  cases hnx : s.next with
  | none =>
    rw [pnNext_eq_none] at hnx
    rw [hnx] at h
    cases h
  | some p =>
    obtain ⟨a2, s2⟩ := p
    obtain ⟨h1, h2⟩ := pnNext_some _ _ _ hnx
    rw [h] at h1
    injection h1 with e1 e2
    exact ⟨s2, by rw [e1], e2.symm, h2 hinv⟩

/-! ### The buffered chunk decoder (`QoiChunkDecoder`) -/

/-- `QoiChunkDecoder`: a 7-byte look-ahead window over the byte source. -/
structure QoiChunkDecoder where
  bytes : PeekN 7 Nat
deriving DecidableEq, Repr

/-- `QoiChunkDecoder::new`. -/
def QoiChunkDecoder.new (l : List Nat) : QoiChunkDecoder := ⟨PeekN.new 7 l⟩

/-- `QoiChunkDecoder::next`, one step.  A `(none, _)` result signals the end
of the chunk output (byte exhaustion or footer recognition). -/
def chunkDecStep (s : QoiChunkDecoder) : Option QoiChunk × QoiChunkDecoder :=
  match s.bytes.next with
  | none => (none, s)
  | some (init, b1) =>
    if init = 0b11111111 then
      match b1.next with
      | none => (none, ⟨b1⟩)
      | some (r, b2) =>
        match b2.next with
        | none => (none, ⟨b2⟩)
        | some (g, b3) =>
          match b3.next with
          | none => (none, ⟨b3⟩)
          | some (b, b4) =>
            match b4.next with
            | none => (none, ⟨b4⟩)
            | some (a, b5) => (some (.rgba r g b a), ⟨b5⟩)
    else if init = 0b11111110 then
      match b1.next with
      | none => (none, ⟨b1⟩)
      | some (r, b2) =>
        match b2.next with
        | none => (none, ⟨b2⟩)
        | some (g, b3) =>
          match b3.next with
          | none => (none, ⟨b3⟩)
          | some (b, b4) => (some (.rgb r g b), ⟨b4⟩)
    else if init >>> 6 = 0b00 then
      if init = 0 then
        if (b1.peekFn).1 = some (QOI_FOOTER.drop 1) then (none, ⟨(b1.peekFn).2⟩)
        else (some (.index (init &&& 0b00111111)), ⟨(b1.peekFn).2⟩)
      else (some (.index (init &&& 0b00111111)), ⟨b1⟩)
    else if init >>> 6 = 0b01 then
      (some (.diff ((((init >>> 4) &&& 0b11 : Nat) : Int) - 2)
        ((((init >>> 2) &&& 0b11 : Nat) : Int) - 2)
        (((init &&& 0b11 : Nat) : Int) - 2)), ⟨b1⟩)
    else if init >>> 6 = 0b10 then
      match b1.next with
      | none => (none, ⟨b1⟩)
      | some (nb, b2) =>
        (some (.luma (((init &&& 0b00111111 : Nat) : Int) - 32)
          ((((nb >>> 4) &&& 0b1111 : Nat) : Int) - 8)
          (((nb &&& 0b1111 : Nat) : Int) - 8)), ⟨b2⟩)
    else
      (some (.run ((init &&& 0b00111111) + 1)), ⟨b1⟩)

/-- Taking seven elements can only produce the footer tail when at least seven
elements remain. -/
theorem take7_footer_length (l : List Nat) (h : l.take 7 = QOI_FOOTER.drop 1) :
    7 ≤ l.length := by
  have hlen := congrArg List.length h
  rw [List.length_take] at hlen
  rw [show (QOI_FOOTER.drop 1).length = 7 from rfl] at hlen
  omega

/-- The buffered chunk decoder agrees with the list-level decoder through the
observable byte sequence, and preserves the buffer invariant. -/
theorem chunkDecStep_bridge (s : QoiChunkDecoder) (hinv : PNInv s.bytes) :
    ∃ s2, chunkDecStep s = ((chunkDecList (pnObs s.bytes)).1, s2) ∧
      pnObs s2.bytes = (chunkDecList (pnObs s.bytes)).2 ∧ PNInv s2.bytes := by
  cases hobs : pnObs s.bytes with
  | nil =>
    refine ⟨s, ?_, by simp [chunkDecList, hobs], hinv⟩
    unfold chunkDecStep
    rw [pnNext_of_obs_nil _ hobs]
    simp [chunkDecList]
  | cons init rest =>
    obtain ⟨b1, hn1, ho1, hi1⟩ := pnNext_of_obs_cons _ _ _ hobs hinv
    unfold chunkDecStep
    rw [hn1]
    simp only [chunkDecList]
    by_cases h255 : init = 255
    · subst h255
      rw [if_pos rfl, if_pos rfl]
      cases rest with
      | nil =>
        rw [pnNext_of_obs_nil b1 ho1]
        exact ⟨⟨b1⟩, rfl, by simp [ho1], hi1⟩
      | cons r rest1 =>
        obtain ⟨b2, hn2, ho2, hi2⟩ := pnNext_of_obs_cons b1 r rest1 ho1 hi1
        rw [hn2]
        simp only []
        cases rest1 with
        | nil =>
          rw [pnNext_of_obs_nil b2 ho2]
          exact ⟨⟨b2⟩, rfl, by simp [ho2], hi2⟩
        | cons g rest2 =>
          obtain ⟨b3, hn3, ho3, hi3⟩ := pnNext_of_obs_cons b2 g rest2 ho2 hi2
          rw [hn3]
          simp only []
          cases rest2 with
          | nil =>
            rw [pnNext_of_obs_nil b3 ho3]
            exact ⟨⟨b3⟩, rfl, by simp [ho3], hi3⟩
          | cons b rest3 =>
            obtain ⟨b4, hn4, ho4, hi4⟩ := pnNext_of_obs_cons b3 b rest3 ho3 hi3
            rw [hn4]
            simp only []
            cases rest3 with
            | nil =>
              rw [pnNext_of_obs_nil b4 ho4]
              exact ⟨⟨b4⟩, rfl, by simp [ho4], hi4⟩
            | cons a rest4 =>
              obtain ⟨b5, hn5, ho5, hi5⟩ := pnNext_of_obs_cons b4 a rest4 ho4 hi4
              rw [hn5]
              simp only []
              exact ⟨⟨b5⟩, rfl, by simp [ho5], hi5⟩
    · by_cases h254 : init = 254
      · subst h254
        rw [if_neg h255, if_neg h255, if_pos rfl, if_pos rfl]
        cases rest with
        | nil =>
          rw [pnNext_of_obs_nil b1 ho1]
          exact ⟨⟨b1⟩, rfl, by simp [ho1], hi1⟩
        | cons r rest1 =>
          obtain ⟨b2, hn2, ho2, hi2⟩ := pnNext_of_obs_cons b1 r rest1 ho1 hi1
          rw [hn2]
          simp only []
          cases rest1 with
          | nil =>
            rw [pnNext_of_obs_nil b2 ho2]
            exact ⟨⟨b2⟩, rfl, by simp [ho2], hi2⟩
          | cons g rest2 =>
            obtain ⟨b3, hn3, ho3, hi3⟩ := pnNext_of_obs_cons b2 g rest2 ho2 hi2
            rw [hn3]
            simp only []
            cases rest2 with
            | nil =>
              rw [pnNext_of_obs_nil b3 ho3]
              exact ⟨⟨b3⟩, rfl, by simp [ho3], hi3⟩
            | cons b rest3 =>
              obtain ⟨b4, hn4, ho4, hi4⟩ := pnNext_of_obs_cons b3 b rest3 ho3 hi3
              rw [hn4]
              simp only []
              exact ⟨⟨b4⟩, rfl, by simp [ho4], hi4⟩
      · rw [if_neg h255, if_neg h254, if_neg h255, if_neg h254]
        by_cases hsh0 : init >>> 6 = 0
        · rw [if_pos hsh0, if_pos hsh0]
          by_cases h0 : init = 0
          · subst h0
            rw [if_pos rfl]
            obtain ⟨hpo, hpi, hpr⟩ := pnPeek_spec b1 hi1
            rw [ho1] at hpr
            rw [hpr]
            by_cases hlen7 : 7 ≤ rest.length
            · rw [if_pos hlen7]
              by_cases hft : rest.take 7 = QOI_FOOTER.drop 1
              · have hc1 : some (rest.take 7) = some (QOI_FOOTER.drop 1) := by
                  rw [hft]
                have hc2 : (0 : Nat) = 0 ∧ rest.take 7 = QOI_FOOTER.drop 1 :=
                  ⟨rfl, hft⟩
                rw [if_pos hc1, if_pos hc2]
                exact ⟨⟨(b1.peekFn).2⟩, rfl, by rw [hpo, ho1], hpi⟩
              · have hc1 : ¬ some (rest.take 7) = some (QOI_FOOTER.drop 1) := by
                  intro hc
                  injection hc with hc2
                  exact hft hc2
                have hc2 : ¬ ((0 : Nat) = 0 ∧ rest.take 7 = QOI_FOOTER.drop 1) := by
                  rintro ⟨-, hc⟩
                  exact hft hc
                rw [if_neg hc1, if_neg hc2]
                exact ⟨⟨(b1.peekFn).2⟩, rfl, by rw [hpo, ho1], hpi⟩
            · rw [if_neg hlen7]
              have hc1 : ¬ (none : Option (List Nat)) = some (QOI_FOOTER.drop 1) := by
                intro hc
                cases hc
              have hc2 : ¬ ((0 : Nat) = 0 ∧ rest.take 7 = QOI_FOOTER.drop 1) := by
                rintro ⟨-, hc⟩
                exact hlen7 (take7_footer_length _ hc)
              rw [if_neg hc1, if_neg hc2]
              exact ⟨⟨(b1.peekFn).2⟩, rfl, by rw [hpo, ho1], hpi⟩
          · have hc2 : ¬ (init = 0 ∧ rest.take 7 = QOI_FOOTER.drop 1) := by
              rintro ⟨hc, -⟩
              exact h0 hc
            rw [if_neg h0, if_neg hc2]
            exact ⟨⟨b1⟩, rfl, by rw [ho1], hi1⟩
        · rw [if_neg hsh0, if_neg hsh0]
          by_cases hsh1 : init >>> 6 = 1
          · rw [if_pos hsh1, if_pos hsh1]
            exact ⟨⟨b1⟩, rfl, by rw [ho1], hi1⟩
          · rw [if_neg hsh1, if_neg hsh1]
            by_cases hsh2 : init >>> 6 = 2
            · rw [if_pos hsh2, if_pos hsh2]
              cases rest with
              | nil =>
                rw [pnNext_of_obs_nil b1 ho1]
                exact ⟨⟨b1⟩, rfl, by simp [ho1], hi1⟩
              | cons nb rest1 =>
                obtain ⟨b2, hn2, ho2, hi2⟩ := pnNext_of_obs_cons b1 nb rest1 ho1 hi1
                rw [hn2]
                simp only []
                exact ⟨⟨b2⟩, rfl, by simp [ho2], hi2⟩
            · rw [if_neg hsh2, if_neg hsh2]
              exact ⟨⟨b1⟩, rfl, by rw [ho1], hi1⟩

/-- The buffered decoder yields whatever the list decoder yields on the
observable byte sequence. -/
theorem yields_chunkDec_transport (bytes : List Nat) (chunks : List QoiChunk)
    (s : QoiChunkDecoder) (hinv : PNInv s.bytes) (hobs : pnObs s.bytes = bytes)
    (hy : Yields chunkDecList bytes chunks) :
    Yields chunkDecStep s chunks := by
  induction hy generalizing s with
  | nil hs =>
    obtain ⟨s2, he, ho2, hi2⟩ := chunkDecStep_bridge s hinv
    rw [hobs, hs] at he
    exact Yields.nil he
  | cons hs htl ih =>
    obtain ⟨s2, he, ho2, hi2⟩ := chunkDecStep_bridge s hinv
    rw [hobs, hs] at he ho2
    exact Yields.cons he (ih s2 hi2 ho2)

/-- Taking seven elements of a list headed by a nonzero byte is never the
footer tail. -/
theorem take7_cons_ne_footer (b : Nat) (l : List Nat) (hb : b ≠ 0) :
    (b :: l).take 7 ≠ QOI_FOOTER.drop 1 := by
  intro hc
  rw [show (b :: l).take 7 = b :: l.take 6 from rfl] at hc
  injection hc with hc1 hc2
  exact hb hc1

/-- Decoding the concatenated bytes of a sequence of in-range chunks (with no
two adjacent `INDEX(0)` chunks) followed by a suffix that neither decodes to a
chunk nor starts with the footer tail yields exactly the chunk sequence. -/
theorem yields_chunkDecList_of_chunks (chunks : List QoiChunk) (suffix : List Nat)
    (hwf : ∀ c ∈ chunks, c.wfRange)
    (hadj : List.Chain'
      (fun c1 c2 => ¬(c1 = QoiChunk.index 0 ∧ c2 = QoiChunk.index 0)) chunks)
    (h1 : (chunkDecList suffix).1 = none)
    (h2 : suffix.take 7 ≠ QOI_FOOTER.drop 1) :
    Yields chunkDecList (chunks.flatMap QoiChunk.toBytes ++ suffix) chunks := by
  induction chunks with
  | nil =>
    rw [List.flatMap_nil, List.nil_append]
    exact Yields.nil (show chunkDecList suffix = (none, (chunkDecList suffix).2) by
      rw [← h1])
  | cons c cs ih =>
    rw [List.flatMap_cons, List.append_assoc]
    have hwfc : c.wfRange := hwf c (by simp)
    have hprov : c = QoiChunk.index 0 →
        (cs.flatMap QoiChunk.toBytes ++ suffix).take 7 ≠ QOI_FOOTER.drop 1 := by
      intro hc0
      cases cs with
      | nil => simpa using h2
      | cons c2 cs2 =>
        have hne : c2 ≠ QoiChunk.index 0 := by
          intro hc2
          exact (List.chain'_cons.mp hadj).1 ⟨hc0, hc2⟩
        obtain ⟨b, l, hbl, hb0⟩ :=
          toBytes_head_ne_zero c2 (hwf c2 (by simp)) hne
        rw [List.flatMap_cons, hbl]
        rw [List.cons_append, List.cons_append]
        exact take7_cons_ne_footer b _ hb0
    refine Yields.cons (chunkDecList_toBytes c _ hwfc hprov) ?_
    exact ih (fun c2 hm => hwf c2 (by simp [hm])) (List.Chain'.tail hadj)

/-! ### Interleaved peek / next runs of the adapter (for the ordering claim) -/

/-- Run a sequence of operations against a `PeekN`: `true` performs `next()`
and records any returned item, `false` performs `peek()` and discards its
result. -/
def pnRun (ops : List Bool) (s : PeekN N α) : List α × PeekN N α :=
  match ops with
  | [] => ([], s)
  | true :: rest =>
    match s.next with
    | none => pnRun rest s
    | some (a, s2) => (a :: (pnRun rest s2).1, (pnRun rest s2).2)
  | false :: rest => pnRun rest (s.peekFn).2

/-- Interleaved `peek` and `next` calls never lose, duplicate or reorder
upstream items: the items consumed so far followed by the still observable
sequence reconstitute the original observable sequence. -/
theorem pnRun_spec (ops : List Bool) (s : PeekN N α) (hinv : PNInv s) :
    (pnRun ops s).1 ++ pnObs (pnRun ops s).2 = pnObs s ∧ PNInv (pnRun ops s).2 := by
  induction ops generalizing s with
  | nil => exact ⟨rfl, hinv⟩
  | cons op rest ih =>
    cases op with
    | false =>
      obtain ⟨hpo, hpi, -⟩ := pnPeek_spec s hinv
      have hrec := ih (s.peekFn).2 hpi
      simp only [pnRun]
      rw [hrec.1, hpo]
      exact ⟨rfl, hrec.2⟩
    | true =>
      cases hnx : s.next with
      | none =>
        have hrec := ih s hinv
        simp only [pnRun]
        rw [hnx]
        exact hrec
      | some p =>
        obtain ⟨a, s2⟩ := p
        obtain ⟨ho, hpres⟩ := pnNext_some s a s2 hnx
        have hrec := ih s2 (hpres hinv)
        refine ⟨?_, ?_⟩
        · simp only [pnRun]
          rw [hnx]
          simp only []
          rw [List.cons_append, hrec.1, ho]
        · simp only [pnRun]
          rw [hnx]
          exact hrec.2

/-! ### The chunk encoder (`arqoii/src/encode.rs`) -/

/-- Chunk selection for a candidate pixel (already known different from the
previous pixel, with no pending run): index lookup first, then DIFF, LUMA,
RGB, and finally RGBA when the alpha changed. -/
def chunkForPixel (c : CoderState) (p : Pixel) : QoiChunk :=
  let idx := p.pixelHash
  if c.index.getD idx Pixel.zero = p then
    QoiChunk.index idx
  else if p.a = c.previous.a then
    let dr := u8ToI8 (u8Sub p.r c.previous.r)
    let dg := u8ToI8 (u8Sub p.g c.previous.g)
    let db := u8ToI8 (u8Sub p.b c.previous.b)
    if -2 ≤ dr ∧ dr ≤ 1 ∧ -2 ≤ dg ∧ dg ≤ 1 ∧ -2 ≤ db ∧ db ≤ 1 then
      QoiChunk.diff dr dg db
    else
      let dr_dg := wrapI8 (dr - dg)
      let db_dg := wrapI8 (db - dg)
      if -32 ≤ dg ∧ dg ≤ 31 ∧ -8 ≤ dr_dg ∧ dr_dg ≤ 7 ∧ -8 ≤ db_dg ∧ db_dg ≤ 7 then
        QoiChunk.luma dg dr_dg db_dg
      else
        QoiChunk.rgb p.r p.g p.b
  else
    QoiChunk.rgba p.r p.g p.b p.a

/-- The pixel-drawing loop of `QoiChunkEncoder::next`: pixels equal to
`previous` are coalesced into the run (emitting `RUN(62)` when it fills, and
entering the pixel into the index when a run starts); the first differing
pixel either closes a pending run (stashing the pixel as the peeked value) or
is encoded through `chunkForPixel`.  Returns the emitted chunk (or `none` at
exhaustion with no pending run) with the updated coder state, stashed pixel
and remaining input. -/
def encGo (c : CoderState) :
    List Pixel → Option QoiChunk × (CoderState × Option Pixel × List Pixel)
  | [] =>
    if c.run > 0 then (some (.run c.run), ({c with run := 0}, none, []))
    else (none, (c, none, []))
  | p :: ps =>
    if p = c.previous then
      if c.run + 1 = 62 then
        (some (.run 62), ({c with run := 0}, none, ps))
      else if c.run + 1 = 1 then
        encGo {c with run := c.run + 1, index := c.index.set p.pixelHash p} ps
      else
        encGo {c with run := c.run + 1} ps
    else if c.run > 0 then
      (some (.run c.run), ({c with run := 0}, some p, ps))
    else
      (some (chunkForPixel c p),
        ({c with
          index := c.index.set p.pixelHash p
          previous := p}, none, ps))

/-- `QoiChunkEncoder`: coder state, remaining upstream pixels, and one stashed
pixel of look-ahead. -/
structure QoiChunkEncoder where
  state : CoderState
  pixel : List Pixel
  peek : Option Pixel
deriving DecidableEq, Repr

/-- `QoiChunkEncoder::new`. -/
def QoiChunkEncoder.new (ps : List Pixel) : QoiChunkEncoder :=
  ⟨CoderState.default, ps, none⟩

/-- One call of `QoiChunkEncoder::next`; pixels are drawn from the stashed
peek value first and the upstream afterwards. -/
def chunkEncStep (e : QoiChunkEncoder) : Option QoiChunk × QoiChunkEncoder :=
  match encGo e.state (e.peek.toList ++ e.pixel) with
  | (oc, (c2, pk, ps)) => (oc, ⟨c2, ps, pk⟩)

/-- The full chunk output of the encoder, computed with a fuel bound (each
emitted chunk consumes at least one input pixel, so `length + 1` calls always
reach exhaustion; `encodeChunks_yields` below justifies the bound). -/
def encodeChunksFuel : Nat → QoiChunkEncoder → List QoiChunk
  | 0, _ => []
  | fuel + 1, e =>
    match chunkEncStep e with
    | (none, _) => []
    | (some c, e2) => c :: encodeChunksFuel fuel e2

/-- All chunks emitted by `QoiChunkEncoder::new(pixels)`. -/
def encodeChunks (ps : List Pixel) : List QoiChunk :=
  encodeChunksFuel (ps.length + 1) (QoiChunkEncoder.new ps)

/-! ### The pixel decoder (`QoiDecoder`) -/

/-- One call of `QoiDecoder::next`, generic in the chunk source step function:
replay a pending run, otherwise pull one chunk and expand it.  Rust's
`run - 1` on `u8` when arming the run counter is the wrapping
`(n + 255) % 256`. -/
def pixStepG {σ : Type} (cstep : σ → Option QoiChunk × σ)
    (st : CoderState × σ) : Option Pixel × (CoderState × σ) :=
  if st.1.run > 0 then
    (some st.1.previous, ({st.1 with run := st.1.run - 1}, st.2))
  else
    match cstep st.2 with
    | (none, s2) => (none, (st.1, s2))
    | (some ch, s2) =>
      match ch with
      | .rgb r g b =>
        let next := Pixel.mk r g b st.1.previous.a
        (some next,
          ({st.1 with
            previous := next
            index := st.1.index.set next.pixelHash next}, s2))
      | .rgba r g b a =>
        let next := Pixel.mk r g b a
        (some next,
          ({st.1 with
            previous := next
            index := st.1.index.set next.pixelHash next}, s2))
      | .index idx =>
        let next := st.1.index.getD idx Pixel.zero
        (some next, ({st.1 with previous := next}, s2))
      | .diff dr dg db =>
        let next := Pixel.mk (u8AddSigned st.1.previous.r dr)
          (u8AddSigned st.1.previous.g dg) (u8AddSigned st.1.previous.b db)
          st.1.previous.a
        (some next,
          ({st.1 with
            previous := next
            index := st.1.index.set next.pixelHash next}, s2))
      | .luma dg dr_dg db_dg =>
        let next := Pixel.mk (u8AddSigned st.1.previous.r (dr_dg + dg))
          (u8AddSigned st.1.previous.g dg)
          (u8AddSigned st.1.previous.b (db_dg + dg)) st.1.previous.a
        (some next,
          ({st.1 with
            previous := next
            index := st.1.index.set next.pixelHash next}, s2))
      | .run n =>
        let next := st.1.previous
        (some next,
          ({st.1 with
            run := (n + 255) % 256
            index := st.1.index.set next.pixelHash next}, s2))

/-- Popping from a plain chunk list, as a chunk-source step function. -/
def listPop {β : Type} : List β → Option β × List β
  | [] => (none, [])
  | x :: r => (some x, r)

/-- The semantic pixel expansion of one chunk from a given coder state,
together with the state after the chunk (a run fully replayed). -/
def expandChunk (c : CoderState) : QoiChunk → List Pixel × CoderState
  | .rgb r g b =>
    let next := Pixel.mk r g b c.previous.a
    ([next], {c with previous := next, index := c.index.set next.pixelHash next})
  | .rgba r g b a =>
    let next := Pixel.mk r g b a
    ([next], {c with previous := next, index := c.index.set next.pixelHash next})
  | .index idx =>
    let next := c.index.getD idx Pixel.zero
    ([next], {c with previous := next})
  | .diff dr dg db =>
    let next := Pixel.mk (u8AddSigned c.previous.r dr)
      (u8AddSigned c.previous.g dg) (u8AddSigned c.previous.b db) c.previous.a
    ([next], {c with previous := next, index := c.index.set next.pixelHash next})
  | .luma dg dr_dg db_dg =>
    let next := Pixel.mk (u8AddSigned c.previous.r (dr_dg + dg))
      (u8AddSigned c.previous.g dg) (u8AddSigned c.previous.b (db_dg + dg))
      c.previous.a
    ([next], {c with previous := next, index := c.index.set next.pixelHash next})
  | .run n =>
    (List.replicate n c.previous,
      {c with index := c.index.set c.previous.pixelHash c.previous})

/-- The semantic pixel expansion of a chunk sequence. -/
def expandAll (c : CoderState) : List QoiChunk → List Pixel
  | [] => []
  | ch :: rest => (expandChunk c ch).1 ++ expandAll (expandChunk c ch).2 rest

/-- The number of semantic pixels of one chunk (`RUN(n)` counts `n`, every
other chunk counts 1). -/
def chunkPixels : QoiChunk → Nat
  | .run n => n
  | _ => 1

/-- The number of semantic pixels of a chunk sequence. -/
def semCount (chunks : List QoiChunk) : Nat := (chunks.map chunkPixels).sum

/-! ### Stream encoder and decoder -/

/-- The byte output of `QoiEncoder::new(header, pixels)`: its `next` chains
the header bytes, then each emitted chunk serialized through the `ChunkBuf`,
then the footer bytes, so the whole output is their concatenation. -/
def qoiEncode (h : QoiHeader) (pixels : List Pixel) : List Nat :=
  h.toBytes ++ (encodeChunks pixels).flatMap QoiChunk.toBytes ++ QOI_FOOTER

/-- The channels byte accepted by `QoiDecoder::new` (3 or 4). -/
def parseChannels : Nat → Option QoiChannels
  | 3 => some .rgb
  | 4 => some .rgba
  | _ => none

/-- The color-space byte accepted by `QoiDecoder::new` (0 or 1). -/
def parseColorSpace : Nat → Option QoiColorSpace
  | 0 => some .sRgbWithLinearAlpha
  | 1 => some .allChannelsLinear
  | _ => none

/-- `QoiDecoder::new`: pull 14 header bytes (fail on exhaustion), check the
magic, decode channels and color space, and wrap the remaining bytes in a
chunk decoder with the default coder state. -/
def qoiDecoderNew (bytes : List Nat) :
    Option (QoiHeader × (CoderState × QoiChunkDecoder)) :=
  match bytes with
  | m0 :: m1 :: m2 :: m3 :: w0 :: w1 :: w2 :: w3 ::
      h0 :: h1 :: h2 :: h3 :: chb :: csb :: rest =>
    if [m0, m1, m2, m3] = QOI_MAGIC then
      match parseChannels chb, parseColorSpace csb with
      | some ch, some cs =>
        some (QoiHeader.mk (u32FromBeBytes w0 w1 w2 w3)
          (u32FromBeBytes h0 h1 h2 h3) ch cs,
          (CoderState.default, QoiChunkDecoder.new rest))
      | _, _ => none
    else none
  | _ => none

/-- The pixel iterator of `QoiDecoder` over the buffered chunk decoder. -/
def qoiPixStep : CoderState × QoiChunkDecoder →
    Option Pixel × (CoderState × QoiChunkDecoder) :=
  pixStepG chunkDecStep

/-! ### List and byte helpers for the encoder proofs -/

theorem getD_set_self (l : List α) (i : Nat) (d v : α) (hi : i < l.length) :
    (l.set i v).getD i d = v := by
  induction l generalizing i with
  | nil => cases hi
  | cons x t ih =>
    cases i with
    | zero => rfl
    | succ j => exact ih j (by simpa using hi)

theorem set_getD_self (l : List α) (i : Nat) (d : α) (hi : i < l.length) :
    l.set i (l.getD i d) = l := by
  induction l generalizing i with
  | nil => cases hi
  | cons x t ih =>
    cases i with
    | zero => rfl
    | succ j => simpa using ih j (by simpa using hi)

theorem pixelHash_lt (p : Pixel) : p.pixelHash < 64 :=
  Nat.mod_lt _ (by omega)

/-- Decoding a wrapped `u8` delta recovers the original byte value:
`x.wrapping_add_signed((y.wrapping_sub x) as i8) = y`. -/
theorem u8_roundtrip (x y : Nat) (hy : y < 256) :
    u8AddSigned x (u8ToI8 (u8Sub y x)) = y := by
  unfold u8AddSigned u8ToI8 u8Sub
  split <;> omega

/-- `u8AddSigned` only depends on the `i8` residue of the delta. -/
theorem u8AddSigned_congr (x : Nat) (d e : Int) (h : d % 256 = e % 256) :
    u8AddSigned x d = u8AddSigned x e := by
  unfold u8AddSigned
  rw [h]

/-- Wrapping into the `i8` range preserves the residue modulo 256. -/
theorem wrapI8_mod (z : Int) : wrapI8 z % 256 = z % 256 := by
  unfold wrapI8
  omega

/-! ### chunkForPixel facts -/

theorem chunkForPixel_index (c : CoderState) (p : Pixel) (i : Nat)
    (h : chunkForPixel c p = QoiChunk.index i) :
    i = p.pixelHash ∧ c.index.getD p.pixelHash Pixel.zero = p := by
  simp only [chunkForPixel] at h
  split_ifs at h with h1 h2 h3 h4 <;>
    first
      | (injection h with hi; exact ⟨hi.symm, h1⟩)
      | exact absurd h (by simp)

theorem chunkForPixel_wf (c : CoderState) (p : Pixel) :
    (chunkForPixel c p).wfRange := by
  simp only [chunkForPixel]
  split_ifs with h1 h2 h3 h4
  · exact pixelHash_lt p
  · exact h3
  · exact h4
  · trivial
  · trivial

/-- With the index-table entry for the previous pixel in place, `chunkForPixel`
expands (through the decoder semantics) exactly to the candidate pixel and the
updated coder state. -/
theorem expand_chunkForPixel (c : CoderState) (p : Pixel) (hp : p.wf)
    (hlen : c.index.length = 64) :
    expandChunk {c with run := 0} (chunkForPixel c p) =
      ([p], CoderState.mk p (c.index.set p.pixelHash p) 0) := by
  obtain ⟨hr, hg, hb, ha⟩ := hp
  simp only [chunkForPixel]
  split_ifs with h1 h2 h3 h4
  · show ([c.index.getD p.pixelHash Pixel.zero],
      {c with run := 0, previous := c.index.getD p.pixelHash Pixel.zero}) = _
    rw [h1]
    have hset : c.index.set p.pixelHash p = c.index := by
      have h5 := set_getD_self c.index p.pixelHash Pixel.zero
        (by rw [hlen]; exact pixelHash_lt p)
      rw [h1] at h5
      exact h5
    rw [hset]
  · show ([Pixel.mk (u8AddSigned c.previous.r (u8ToI8 (u8Sub p.r c.previous.r)))
      (u8AddSigned c.previous.g (u8ToI8 (u8Sub p.g c.previous.g)))
      (u8AddSigned c.previous.b (u8ToI8 (u8Sub p.b c.previous.b)))
      c.previous.a], _) = _
    rw [u8_roundtrip _ _ hr, u8_roundtrip _ _ hg, u8_roundtrip _ _ hb, ← h2]
  · show ([Pixel.mk
      (u8AddSigned c.previous.r
        (wrapI8 (u8ToI8 (u8Sub p.r c.previous.r) - u8ToI8 (u8Sub p.g c.previous.g)) +
          u8ToI8 (u8Sub p.g c.previous.g)))
      (u8AddSigned c.previous.g (u8ToI8 (u8Sub p.g c.previous.g)))
      (u8AddSigned c.previous.b
        (wrapI8 (u8ToI8 (u8Sub p.b c.previous.b) - u8ToI8 (u8Sub p.g c.previous.g)) +
          u8ToI8 (u8Sub p.g c.previous.g)))
      c.previous.a], _) = _
    rw [u8AddSigned_congr c.previous.r
        (wrapI8 (u8ToI8 (u8Sub p.r c.previous.r) - u8ToI8 (u8Sub p.g c.previous.g)) +
          u8ToI8 (u8Sub p.g c.previous.g))
        (u8ToI8 (u8Sub p.r c.previous.r)) (by
          rw [Int.add_emod, wrapI8_mod, ← Int.add_emod]
          rw [Int.sub_add_cancel]),
      u8AddSigned_congr c.previous.b
        (wrapI8 (u8ToI8 (u8Sub p.b c.previous.b) - u8ToI8 (u8Sub p.g c.previous.g)) +
          u8ToI8 (u8Sub p.g c.previous.g))
        (u8ToI8 (u8Sub p.b c.previous.b)) (by
          rw [Int.add_emod, wrapI8_mod, ← Int.add_emod]
          rw [Int.sub_add_cancel])]
    rw [u8_roundtrip _ _ hr, u8_roundtrip _ _ hg, u8_roundtrip _ _ hb, ← h2]
  · show ([Pixel.mk p.r p.g p.b c.previous.a], _) = _
    rw [← h2]
  · rfl

theorem replicate_succ_append (n : Nat) (a : α) (l : List α) :
    List.replicate (n + 1) a ++ l = List.replicate n a ++ a :: l := by
  rw [List.replicate_succ', List.append_assoc]
  rfl

/-- Expanding a `RUN` chunk from a state whose index already records the
previous pixel leaves the index unchanged. -/
theorem run_expand_state (c : CoderState) (hlen : c.index.length = 64)
    (hinv : c.index.getD c.previous.pixelHash Pixel.zero = c.previous) (n : Nat) :
    expandChunk {c with run := 0} (QoiChunk.run n) =
      (List.replicate n c.previous, {c with run := 0}) := by
  show (List.replicate n c.previous,
    CoderState.mk c.previous (c.index.set c.previous.pixelHash c.previous) 0) = _
  have h5 := set_getD_self c.index c.previous.pixelHash Pixel.zero
    (by rw [hlen]; exact pixelHash_lt _)
  rw [hinv] at h5
  rw [h5]

/-! ### encGo case analysis -/

/-- `QoiChunkEncoder::next` only ends its output at input exhaustion with no
pending run, leaving the state untouched. -/
theorem encGo_none (ps : List Pixel) : ∀ (c : CoderState)
    (st : CoderState × Option Pixel × List Pixel),
    encGo c ps = (none, st) → ps = [] ∧ c.run = 0 ∧ st = (c, none, []) := by
  induction ps with
  | nil =>
    intro c st h
    simp only [encGo] at h
    split_ifs at h with h1
    · simp at h
    · obtain ⟨-, e2⟩ := Prod.mk.injEq .. ▸ h
      exact ⟨rfl, by omega, e2.symm⟩
  | cons p ps2 ih =>
    intro c st h
    simp only [encGo] at h
    split_ifs at h with h1 h2 h3 h4
    · simp at h
    · obtain ⟨-, hr1, -⟩ := ih _ _ h
      simp at hr1
    · obtain ⟨-, hr1, -⟩ := ih _ _ h
      simp at hr1
    · simp at h
    · simp at h

/-- Classification of one emitted chunk: the state run returns to zero, at
least one input pixel is consumed (when no run was pending), mid-run emission
is always a `RUN` chunk, payloads are in range, and the index length is
preserved. -/
theorem encGo_some (ps : List Pixel) : ∀ (c : CoderState) (ch : QoiChunk)
    (st : CoderState × Option Pixel × List Pixel),
    encGo c ps = (some ch, st) →
    st.1.run = 0 ∧
    st.2.1.toList.length + st.2.2.length ≤ ps.length ∧
    (c.run = 0 → st.2.1.toList.length + st.2.2.length < ps.length) ∧
    (c.run > 0 → ∃ n, ch = QoiChunk.run n) ∧
    (c.run ≤ 61 → ch.wfRange) ∧
    st.1.index.length = c.index.length := by
  induction ps with
  | nil =>
    intro c ch st h
    simp only [encGo] at h
    split_ifs at h with h1
    · obtain ⟨e1, e2⟩ := Prod.mk.injEq .. ▸ h
      injection e1 with e1
      subst e1
      subst e2
      refine ⟨rfl, by simp, fun hc => absurd hc (by omega), fun _ => ⟨c.run, rfl⟩,
        fun h61 => ⟨by omega, by omega⟩, rfl⟩
    · simp at h
  | cons p ps2 ih =>
    intro c ch st h
    simp only [encGo] at h
    split_ifs at h with h1 h2 h3 h4
    · obtain ⟨e1, e2⟩ := Prod.mk.injEq .. ▸ h
      injection e1 with e1
      subst e1
      subst e2
      exact ⟨rfl, by simp, fun _ => by simp [Nat.lt_succ_of_le],
        fun _ => ⟨62, rfl⟩, fun _ => ⟨by omega, by omega⟩, rfl⟩
    · obtain ⟨hr0, hle, -, -, hwf, hlen⟩ := ih _ _ _ h
      refine ⟨hr0, by simp; omega, fun _ => by simp; omega,
        fun hc => absurd hc (by omega), ?_, ?_⟩
      · intro h61
        exact hwf (by show c.run + 1 ≤ 61; omega)
      · rw [hlen]
        simp
    · obtain ⟨hr0, hle, -, hrun, hwf, hlen⟩ := ih _ _ _ h
      refine ⟨hr0, by simp; omega, fun _ => by simp; omega,
        fun _ => hrun (by show c.run + 1 > 0; omega),
        fun h61 => hwf (by show c.run + 1 ≤ 61; omega), hlen⟩
    · obtain ⟨e1, e2⟩ := Prod.mk.injEq .. ▸ h
      injection e1 with e1
      subst e1
      subst e2
      exact ⟨rfl, by simp [Nat.add_comm], fun hc => absurd hc (by omega),
        fun _ => ⟨c.run, rfl⟩, fun h61 => ⟨by omega, by omega⟩, rfl⟩
    · obtain ⟨e1, e2⟩ := Prod.mk.injEq .. ▸ h
      injection e1 with e1
      subst e1
      subst e2
      refine ⟨by simp; omega, by simp, fun _ => by simp [Nat.lt_succ_of_le], ?_, ?_, ?_⟩
      · intro hc
        exact absurd hc h4
      · intro h61
        exact chunkForPixel_wf c p
      · simp

/-- After an `INDEX(i)` emission, the previous pixel hashes to `i`, the index
table maps `i` back to it, and no pixel is stashed. -/
theorem encGo_index_post (ps : List Pixel) : ∀ (c : CoderState) (i : Nat)
    (st : CoderState × Option Pixel × List Pixel),
    c.index.length = 64 →
    encGo c ps = (some (QoiChunk.index i), st) →
    st.1.previous.pixelHash = i ∧
    st.1.index.getD i Pixel.zero = st.1.previous ∧ st.2.1 = none := by
  induction ps with
  | nil =>
    intro c i st hlen h
    simp only [encGo] at h
    split_ifs at h with h1 <;> simp at h
  | cons p ps2 ih =>
    intro c i st hlen h
    simp only [encGo] at h
    split_ifs at h with h1 h2 h3 h4
    · simp at h
    · refine ih _ _ _ ?_ h
      simpa using hlen
    · refine ih _ _ _ ?_ h
      exact hlen
    · simp at h
    · obtain ⟨e1, e2⟩ := Prod.mk.injEq .. ▸ h
      injection e1 with e1
      subst e2
      obtain ⟨hi, hg⟩ := chunkForPixel_index _ _ _ e1
      subst hi
      refine ⟨rfl, ?_, rfl⟩
      exact getD_set_self _ _ _ _ (by rw [hlen]; exact pixelHash_lt p)

/-- From a state with no pending run whose index already maps the previous
pixel's hash back to it, the next emitted chunk is never `INDEX` of that very
slot (two consecutive identical pixels would have become a run instead). -/
theorem encGo_no_rep (ps : List Pixel) (c : CoderState)
    (hrun : c.run = 0)
    (hinv : c.index.getD c.previous.pixelHash Pixel.zero = c.previous) :
    ∀ st, encGo c ps ≠ (some (QoiChunk.index c.previous.pixelHash), st) := by
  intro st h
  cases ps with
  | nil =>
    simp only [encGo] at h
    rw [if_neg (by omega)] at h
    simp at h
  | cons p ps2 =>
    simp only [encGo] at h
    split_ifs at h with h1 h2 h3 h4
    · simp at h
    · obtain ⟨-, -, -, hrr, -, -⟩ := encGo_some _ _ _ _ h
      obtain ⟨n, hn⟩ := hrr (by simp)
      exact absurd hn (by simp)
    · exact absurd (by omega : c.run + 1 = 1) h3
    · exact absurd h4 (by omega)
    · obtain ⟨e1, -⟩ := Prod.mk.injEq .. ▸ h
      injection e1 with e1
      obtain ⟨hi, hg⟩ := chunkForPixel_index _ _ _ e1
      rw [← hi] at hg
      rw [hinv] at hg
      exact h1 hg.symm

/-- Simulation: each emitted chunk, expanded through the decoder semantics
from the shared coder state, reproduces exactly the pixels the encoder
consumed for it, and both sides arrive at the same coder state. -/
theorem encGo_sim (ps : List Pixel) : ∀ (c : CoderState) (ch : QoiChunk)
    (st : CoderState × Option Pixel × List Pixel),
    c.index.length = 64 →
    c.run ≤ 61 →
    (c.run > 0 → c.index.getD c.previous.pixelHash Pixel.zero = c.previous) →
    (∀ p ∈ ps, p.wf) →
    encGo c ps = (some ch, st) →
    (expandChunk {c with run := 0} ch).1 ++ (st.2.1.toList ++ st.2.2) =
      List.replicate c.run c.previous ++ ps ∧
    (expandChunk {c with run := 0} ch).2 = st.1 := by
  induction ps with
  | nil =>
    intro c ch st hlen h61 hinv hwf h
    simp only [encGo] at h
    split_ifs at h with h1
    · obtain ⟨e1, e2⟩ := Prod.mk.injEq .. ▸ h
      injection e1 with e1
      subst e1
      subst e2
      rw [run_expand_state c hlen (hinv h1)]
      exact ⟨by simp, rfl⟩
    · simp at h
  | cons p ps2 ih =>
    intro c ch st hlen h61 hinv hwf h
    simp only [encGo] at h
    split_ifs at h with h1 h2 h3 h4
    · -- run filled to 62
      obtain ⟨e1, e2⟩ := Prod.mk.injEq .. ▸ h
      injection e1 with e1
      subst e1
      subst e2
      subst h1
      rw [run_expand_state c hlen (hinv (by omega))]
      have hc61 : c.run = 61 := by omega
      refine ⟨?_, rfl⟩
      rw [hc61]
      simp only [Option.toList_none, List.nil_append]
      exact replicate_succ_append 61 c.previous ps2
    · -- run starts (c.run = 0), index entry written for the pixel
      subst h1
      have hc0 : c.run = 0 := by omega
      have hrec := ih
        {c with
          run := c.run + 1
          index := c.index.set c.previous.pixelHash c.previous} ch st
        (by simpa using hlen) (by show c.run + 1 ≤ 61; omega)
        (fun _ => by
          show (c.index.set c.previous.pixelHash c.previous).getD
            c.previous.pixelHash Pixel.zero = c.previous
          exact getD_set_self _ _ _ _ (by rw [hlen]; exact pixelHash_lt _))
        (fun q hq => hwf q (by simp [hq])) h
      simp only [] at hrec
      obtain ⟨-, -, -, hrun, -, -⟩ := encGo_some _ _ _ _ h
      obtain ⟨n, hn⟩ := hrun (by show c.run + 1 > 0; omega)
      subst hn
      have hee : expandChunk {c with run := 0} (QoiChunk.run n) =
          expandChunk
            {c with
              index := c.index.set c.previous.pixelHash c.previous
              run := 0} (QoiChunk.run n) := by
        show (List.replicate n c.previous,
          CoderState.mk c.previous (c.index.set c.previous.pixelHash c.previous) 0) =
          (List.replicate n c.previous, CoderState.mk c.previous
            ((c.index.set c.previous.pixelHash c.previous).set
              c.previous.pixelHash c.previous) 0)
        rw [List.set_set]
      rw [hee]
      refine ⟨?_, hrec.2⟩
      rw [hrec.1, hc0]
      simp [List.replicate_succ]
    · -- run continues
      subst h1
      have hr1 : c.run ≥ 1 := by omega
      have hrec := ih {c with run := c.run + 1} ch st
        (by simpa using hlen) (by show c.run + 1 ≤ 61; omega)
        (fun _ => hinv (by omega))
        (fun q hq => hwf q (by simp [hq])) h
      simp only [] at hrec
      refine ⟨?_, hrec.2⟩
      rw [hrec.1]
      rw [replicate_succ_append]
    · -- pending run closed by a differing pixel
      obtain ⟨e1, e2⟩ := Prod.mk.injEq .. ▸ h
      injection e1 with e1
      subst e1
      subst e2
      rw [run_expand_state c hlen (hinv h4)]
      exact ⟨rfl, rfl⟩
    · -- no pending run: encode the candidate pixel
      obtain ⟨e1, e2⟩ := Prod.mk.injEq .. ▸ h
      injection e1 with e1
      subst e1
      subst e2
      have hc0 : c.run = 0 := by omega
      rw [expand_chunkForPixel c p (hwf p (by simp)) hlen]
      constructor
      · rw [hc0]
        rfl
      · rw [hc0]

/-! ### Step-level encoder facts -/

theorem chunkEncStep_some (e : QoiChunkEncoder) (ch : QoiChunk)
    (e2 : QoiChunkEncoder) (h : chunkEncStep e = (some ch, e2)) :
    encGo e.state (e.peek.toList ++ e.pixel) =
      (some ch, (e2.state, e2.peek, e2.pixel)) := by
  unfold chunkEncStep at h
  cases hg : encGo e.state (e.peek.toList ++ e.pixel) with
  | mk oc st =>
    rw [hg] at h
    obtain ⟨c2, pk, ps⟩ := st
    simp only [] at h
    obtain ⟨h1, h2⟩ := Prod.mk.injEq .. ▸ h
    subst h1
    subst h2
    rfl

theorem chunkEncStep_none (e : QoiChunkEncoder) (e2 : QoiChunkEncoder)
    (h : chunkEncStep e = (none, e2)) :
    e.peek.toList ++ e.pixel = [] ∧ e.state.run = 0 := by
  unfold chunkEncStep at h
  cases hg : encGo e.state (e.peek.toList ++ e.pixel) with
  | mk oc st =>
    rw [hg] at h
    obtain ⟨c2, pk, ps⟩ := st
    simp only [] at h
    obtain ⟨h1, -⟩ := Prod.mk.injEq .. ▸ h
    subst h1
    obtain ⟨ha, hb, -⟩ := encGo_none _ _ _ hg
    exact ⟨ha, hb⟩

/-- The fuel `pixels + 1` is always enough: starting from a zero-run state the
fuel-bounded chunk list is the iterator's complete output. -/
theorem encodeChunksFuel_yields (fuel : Nat) : ∀ (e : QoiChunkEncoder),
    e.state.run = 0 → e.peek.toList.length + e.pixel.length < fuel →
    Yields chunkEncStep e (encodeChunksFuel fuel e) := by
  induction fuel with
  | zero =>
    intro e h0 hlt
    omega
  | succ f ih =>
    intro e h0 hlt
    simp only [encodeChunksFuel]
    cases hstep : chunkEncStep e with
    | mk oc e2 =>
      cases oc with
      | none => exact Yields.nil hstep
      | some ch =>
        simp only []
        refine Yields.cons hstep (ih e2 ?_ ?_)
        · exact (encGo_some _ _ _ _ (chunkEncStep_some _ _ _ hstep)).1
        · have hlt2 := (encGo_some _ _ _ _ (chunkEncStep_some _ _ _ hstep)).2.2.1 h0
          simp only [] at hlt2
          rw [List.length_append] at hlt2
          omega

theorem encodeChunks_yields (ps : List Pixel) :
    Yields chunkEncStep (QoiChunkEncoder.new ps) (encodeChunks ps) :=
  encodeChunksFuel_yields _ _ rfl (by simp [QoiChunkEncoder.new])

/-- Every chunk the encoder emits from a zero-run state has in-range payload. -/
theorem encYields_wf (chunks : List QoiChunk) : ∀ (e : QoiChunkEncoder),
    Yields chunkEncStep e chunks → e.state.run = 0 →
    ∀ c ∈ chunks, c.wfRange := by
  induction chunks with
  | nil =>
    intro e hy h0 c hc
    simp at hc
  | cons ch rest ih =>
    intro e hy h0 c hc
    cases hy with
    | cons hs htl =>
      have hfacts := encGo_some _ _ _ _ (chunkEncStep_some _ _ _ hs)
      rcases List.mem_cons.mp hc with hc1 | hc2
      · subst hc1
        exact hfacts.2.2.2.2.1 (by omega)
      · exact ih _ htl hfacts.1 c hc2

/-- Adjacent chunks never reference the same index slot twice. -/
def NoSameIdx (c1 c2 : QoiChunk) : Prop :=
  ∀ i, c1 = QoiChunk.index i → c2 ≠ QoiChunk.index i

/-- The encoder never emits two consecutive `INDEX` chunks of the same slot,
and, when its state already maps the previous pixel's hash slot back to the
previous pixel, its first chunk cannot be `INDEX` of that slot. -/
theorem encYields_chain (chunks : List QoiChunk) : ∀ (e : QoiChunkEncoder),
    Yields chunkEncStep e chunks → e.state.run = 0 →
    e.state.index.length = 64 →
    List.Chain' NoSameIdx chunks ∧
    (∀ i, e.state.previous.pixelHash = i →
      e.state.index.getD i Pixel.zero = e.state.previous →
      ∀ c2 ∈ chunks.head?, c2 ≠ QoiChunk.index i) := by
  induction chunks with
  | nil =>
    intro e hy h0 hlen
    refine ⟨List.chain'_nil, ?_⟩
    intro i hh hi c2 hc2
    simp at hc2
  | cons ch rest ih =>
    intro e hy h0 hlen
    cases hy with
    | cons hs htl =>
      have hgo := chunkEncStep_some _ _ _ hs
      have hfacts := encGo_some _ _ _ _ hgo
      have ihr := ih _ htl hfacts.1 (by rw [hfacts.2.2.2.2.2]; exact hlen)
      constructor
      · rw [List.chain'_cons']
        refine ⟨?_, ihr.1⟩
        intro c2 hc2 i hchi
        subst hchi
        have hpost := encGo_index_post _ _ _ _ hlen hgo
        exact ihr.2 i hpost.1 hpost.2.1 c2 hc2
      · intro i hh hi c2 hc2 hc2i
        simp only [List.head?_cons, Option.mem_def, Option.some.injEq] at hc2
        subst hc2
        subst hc2i
        subst hh
        exact encGo_no_rep _ e.state h0 hi _ hgo

/-- Expanding the emitted chunk sequence through the decoder semantics
reproduces exactly the remaining input pixels. -/
theorem encYields_expand (chunks : List QoiChunk) : ∀ (e : QoiChunkEncoder),
    Yields chunkEncStep e chunks → e.state.run = 0 →
    e.state.index.length = 64 →
    (∀ p ∈ e.peek.toList ++ e.pixel, p.wf) →
    expandAll e.state chunks = e.peek.toList ++ e.pixel := by
  induction chunks with
  | nil =>
    intro e hy h0 hlen hwf
    cases hy with
    | nil hs =>
      rw [(chunkEncStep_none _ _ hs).1]
      rfl
  | cons ch rest ih =>
    intro e hy h0 hlen hwf
    cases hy with
    | cons hs htl =>
      have hgo := chunkEncStep_some _ _ _ hs
      have hfacts := encGo_some _ _ _ _ hgo
      have hsim := encGo_sim _ _ _ _ hlen (by omega)
        (fun hc => absurd hc (by omega)) hwf hgo
      have hst : (CoderState.mk e.state.previous e.state.index 0) = e.state := by
        rw [show (0 : Nat) = e.state.run from h0.symm]
      have hsim1 := hsim.1
      have hsim2 := hsim.2
      rw [show ({e.state with run := 0} : CoderState) =
        CoderState.mk e.state.previous e.state.index 0 from rfl, hst] at hsim1 hsim2
      rw [h0] at hsim1
      simp only [List.replicate_zero, List.nil_append] at hsim1
      show (expandChunk e.state ch).1 ++
        expandAll (expandChunk e.state ch).2 rest = _
      rw [hsim2]
      rw [ih _ htl hfacts.1 (by rw [hfacts.2.2.2.2.2]; exact hlen) ?_]
      · exact hsim1
      · intro q hq
        refine hwf q ?_
        rw [← hsim1]
        simp only [List.mem_append] at hq ⊢
        rcases hq with hq1 | hq2
        · exact Or.inr (Or.inl hq1)
        · exact Or.inr (Or.inr hq2)

/-! ### Pixel decoder lemmas -/

/-- A partial iterator trace: from state `s`, the step function produces the
items `l` and arrives at state `s3` (without having reported exhaustion). -/
inductive Steps {σ α : Type} (step : σ → Option α × σ) : σ → List α → σ → Prop
  | refl : ∀ {s}, Steps step s [] s
  | cons : ∀ {s a s2 l s3}, step s = (some a, s2) → Steps step s2 l s3 →
      Steps step s (a :: l) s3

theorem steps_yields {σ α : Type} (step : σ → Option α × σ) (s : σ)
    (l1 l2 : List α) (s3 : σ) (h1 : Steps step s l1 s3)
    (h2 : Yields step s3 l2) : Yields step s (l1 ++ l2) := by
  induction h1 with
  | refl => exact h2
  | cons hs htl ih => exact Yields.cons hs (ih h2)

/-- Replaying an armed run yields the previous pixel `run` times, ending with
the run counter cleared. -/
theorem pixStepG_replay {σ : Type} (cstep : σ → Option QoiChunk × σ) (k : Nat) :
    ∀ (c : CoderState) (s : σ), c.run = k →
    Steps (pixStepG cstep) ((c, s)) (List.replicate k c.previous)
      ((CoderState.mk c.previous c.index 0, s)) := by
  induction k with
  | zero =>
    intro c s hk
    have : CoderState.mk c.previous c.index 0 = c := by
      rw [show (0 : Nat) = c.run from hk.symm]
    rw [this]
    exact Steps.refl
  | succ m ih =>
    intro c s hk
    rw [List.replicate_succ]
    refine Steps.cons ?_ (ih {c with run := c.run - 1} s (by show c.run - 1 = m; omega))
    unfold pixStepG
    rw [if_pos (show ((c, s) : CoderState × σ).1.run > 0 from (by show c.run > 0; omega))]

/-- One chunk with an in-range run payload is consumed by the pixel decoder
exactly as its semantic expansion. -/
theorem pixStepG_chunk {σ : Type} (cstep : σ → Option QoiChunk × σ)
    (c : CoderState) (s s2 : σ) (ch : QoiChunk) (h0 : c.run = 0)
    (hs : cstep s = (some ch, s2))
    (hrun : ∀ n, ch = QoiChunk.run n → 1 ≤ n ∧ n ≤ 62) :
    Steps (pixStepG cstep) ((c, s)) (expandChunk c ch).1
      ((expandChunk c ch).2, s2) := by
  cases ch with
  | rgb r g b =>
    simp only [expandChunk]
    refine Steps.cons ?_ Steps.refl
    unfold pixStepG
    rw [if_neg (show ¬ ((c, s) : CoderState × σ).1.run > 0 from (by show ¬ c.run > 0; omega)), hs]
  | rgba r g b a =>
    simp only [expandChunk]
    refine Steps.cons ?_ Steps.refl
    unfold pixStepG
    rw [if_neg (show ¬ ((c, s) : CoderState × σ).1.run > 0 from (by show ¬ c.run > 0; omega)), hs]
  | index idx =>
    simp only [expandChunk]
    refine Steps.cons ?_ Steps.refl
    unfold pixStepG
    rw [if_neg (show ¬ ((c, s) : CoderState × σ).1.run > 0 from (by show ¬ c.run > 0; omega)), hs]
  | diff dr dg db =>
    simp only [expandChunk]
    refine Steps.cons ?_ Steps.refl
    unfold pixStepG
    rw [if_neg (show ¬ ((c, s) : CoderState × σ).1.run > 0 from (by show ¬ c.run > 0; omega)), hs]
  | luma dg dr_dg db_dg =>
    simp only [expandChunk]
    refine Steps.cons ?_ Steps.refl
    unfold pixStepG
    rw [if_neg (show ¬ ((c, s) : CoderState × σ).1.run > 0 from (by show ¬ c.run > 0; omega)), hs]
  | run n =>
    obtain ⟨hn1, hn2⟩ := hrun n rfl
    simp only [expandChunk]
    rw [show List.replicate n c.previous =
      c.previous :: List.replicate (n - 1) c.previous from (by
        rw [show n = (n - 1) + 1 from (by omega), List.replicate_succ]
        simp)]
    have hstep : pixStepG cstep (c, s) = (some c.previous,
        ({c with
          run := (n + 255) % 256
          index := c.index.set c.previous.pixelHash c.previous}, s2)) := by
      unfold pixStepG
      rw [if_neg (show ¬ ((c, s) : CoderState × σ).1.run > 0 from
        (by show ¬ c.run > 0; omega)), hs]
    refine Steps.cons hstep ?_
    have hrep := pixStepG_replay cstep (n - 1)
      {c with
        run := (n + 255) % 256
        index := c.index.set c.previous.pixelHash c.previous} s2 (by
          show (n + 255) % 256 = n - 1
          omega)
    simp only [] at hrep
    rw [h0]
    exact hrep

/-- Driving the pixel decoder over a chunk source that yields `chunks` (all
run payloads in range) produces exactly the semantic expansion. -/
theorem pix_yields {σ : Type} (cstep : σ → Option QoiChunk × σ)
    (chunks : List QoiChunk) : ∀ (s : σ) (c : CoderState),
    Yields cstep s chunks →
    (∀ n, QoiChunk.run n ∈ chunks → 1 ≤ n ∧ n ≤ 62) →
    c.run = 0 →
    Yields (pixStepG cstep) ((c, s)) (expandAll c chunks) := by
  induction chunks with
  | nil =>
    intro s c hy hr h0
    cases hy with
    | nil hs =>
      rename_i s4
      have hstep : pixStepG cstep (c, s) = (none, (c, s4)) := by
        unfold pixStepG
        rw [if_neg (show ¬ ((c, s) : CoderState × σ).1.run > 0 from
          (by show ¬ c.run > 0; omega)), hs]
      exact Yields.nil hstep
  | cons ch rest ih =>
    intro s c hy hr h0
    cases hy with
    | cons hs htl =>
      show Yields _ _ ((expandChunk c ch).1 ++ expandAll (expandChunk c ch).2 rest)
      refine steps_yields _ _ _ _ _
        (pixStepG_chunk cstep c s _ ch h0 hs ?_) (ih _ _ htl ?_ ?_)
      · intro n hn
        exact hr n (by rw [← hn]; simp)
      · intro n hn
        exact hr n (by simp [hn])
      · cases ch with
        | rgb r g b => exact h0
        | rgba r g b a => exact h0
        | index idx => exact h0
        | diff dr dg db => exact h0
        | luma dg dr_dg db_dg => exact h0
        | run n => exact h0

/-- The semantic expansion has exactly the semantic pixel count. -/
theorem expandAll_length (chunks : List QoiChunk) : ∀ (c : CoderState),
    (expandAll c chunks).length = semCount chunks := by
  induction chunks with
  | nil => intro c; rfl
  | cons ch rest ih =>
    intro c
    show ((expandChunk c ch).1 ++ expandAll (expandChunk c ch).2 rest).length = _
    rw [List.length_append, ih]
    show (expandChunk c ch).1.length + semCount rest =
      chunkPixels ch + semCount rest
    congr 1
    cases ch <;> simp [expandChunk, chunkPixels]

/-! ### Header codec lemmas -/

theorem header_toBytes_length (h : QoiHeader) : h.toBytes.length = 14 := by
  simp [QoiHeader.toBytes, QOI_MAGIC, u32ToBeBytes]

theorem u32_be_roundtrip (w : Nat) (hw : w < 2 ^ 32) :
    u32FromBeBytes (w / 2 ^ 24 % 256) (w / 2 ^ 16 % 256) (w / 2 ^ 8 % 256)
      (w % 256) = w := by
  unfold u32FromBeBytes
  omega

/-- Parsing the serialized header succeeds and reproduces it verbatim. -/
theorem qoiDecoderNew_toBytes (h : QoiHeader) (rest : List Nat) (hwf : h.wf) :
    qoiDecoderNew (h.toBytes ++ rest) =
      some (h, (CoderState.default, QoiChunkDecoder.new rest)) := by
  obtain ⟨w, ht, ch, cs⟩ := h
  obtain ⟨hw, hh⟩ := hwf
  simp only [] at hw hh
  have e1 : u32FromBeBytes (w / 16777216 % 256) (w / 65536 % 256) (w / 256 % 256)
      (w % 256) = w := by
    unfold u32FromBeBytes
    omega
  have e2 : u32FromBeBytes (ht / 16777216 % 256) (ht / 65536 % 256)
      (ht / 256 % 256) (ht % 256) = ht := by
    unfold u32FromBeBytes
    omega
  cases ch <;> cases cs <;>
    simp [QoiHeader.toBytes, QOI_MAGIC, u32ToBeBytes, qoiDecoderNew,
      QoiChannels.toByte, QoiColorSpace.toByte, parseChannels, parseColorSpace,
      e1, e2]

theorem parseChannels_none_iff (n : Nat) :
    parseChannels n = none ↔ ¬(n = 3 ∨ n = 4) := by
  unfold parseChannels
  split
  · simp
  · simp
  · rename_i h1 h2
    simp only [not_or]
    exact ⟨fun _ => ⟨h1, h2⟩, fun _ => by trivial⟩

theorem parseColorSpace_none_iff (n : Nat) :
    parseColorSpace n = none ↔ ¬(n = 0 ∨ n = 1) := by
  unfold parseColorSpace
  split
  · simp
  · simp
  · rename_i h1 h2
    simp only [not_or]
    exact ⟨fun _ => ⟨h1, h2⟩, fun _ => by trivial⟩

/-- Header parsing fails exactly on short input, wrong magic, a channels byte
other than 3 or 4, or a color-space byte other than 0 or 1. -/
theorem qoiDecoderNew_none_iff (bytes : List Nat) :
    qoiDecoderNew bytes = none ↔
      (bytes.length < 14 ∨ bytes.take 4 ≠ QOI_MAGIC ∨
        ¬(bytes.getD 12 0 = 3 ∨ bytes.getD 12 0 = 4) ∨
        ¬(bytes.getD 13 0 = 0 ∨ bytes.getD 13 0 = 1)) := by
  rcases bytes with _ | ⟨m0, _ | ⟨m1, _ | ⟨m2, _ | ⟨m3, _ | ⟨w0, _ | ⟨w1, _ |
    ⟨w2, _ | ⟨w3, _ | ⟨h0, _ | ⟨h1, _ | ⟨h2, _ | ⟨h3, _ | ⟨chb, _ |
    ⟨csb, rest⟩⟩⟩⟩⟩⟩⟩⟩⟩⟩⟩⟩⟩⟩ <;>
    try exact iff_of_true rfl (Or.inl (by simp))
  have hlen : ¬ (m0 :: m1 :: m2 :: m3 :: w0 :: w1 :: w2 :: w3 ::
      h0 :: h1 :: h2 :: h3 :: chb :: csb :: rest).length < 14 := by
    simp only [List.length_cons]
    omega
  rw [iff_iff_implies_and_implies]
  constructor
  · intro hnone
    unfold qoiDecoderNew at hnone
    simp only [] at hnone
    by_cases hm : [m0, m1, m2, m3] = QOI_MAGIC
    · rw [if_pos hm] at hnone
      cases hpc : parseChannels chb with
      | none =>
        refine Or.inr (Or.inr (Or.inl ?_))
        show ¬(chb = 3 ∨ chb = 4)
        exact (parseChannels_none_iff chb).mp hpc
      | some ch =>
        cases hps : parseColorSpace csb with
        | none =>
          refine Or.inr (Or.inr (Or.inr ?_))
          show ¬(csb = 0 ∨ csb = 1)
          exact (parseColorSpace_none_iff csb).mp hps
        | some cs =>
          rw [hpc, hps] at hnone
          simp at hnone
    · refine Or.inr (Or.inl ?_)
      show (m0 :: m1 :: m2 :: m3 :: w0 :: w1 :: w2 :: w3 ::
        h0 :: h1 :: h2 :: h3 :: chb :: csb :: rest).take 4 ≠ QOI_MAGIC
      simpa using hm
  · intro hcond
    unfold qoiDecoderNew
    simp only []
    rcases hcond with hc | hc | hc | hc
    · exact absurd hc hlen
    · rw [if_neg (by simpa using hc)]
    · by_cases hm : [m0, m1, m2, m3] = QOI_MAGIC
      · rw [if_pos hm]
        rw [(parseChannels_none_iff chb).mpr hc]
      · rw [if_neg hm]
    · by_cases hm : [m0, m1, m2, m3] = QOI_MAGIC
      · rw [if_pos hm]
        rw [(parseColorSpace_none_iff csb).mpr hc]
        cases parseChannels chb <;> rfl
      · rw [if_neg hm]


/-! ### Assembled facts used by the top-level claims -/

/-- Popping a plain list as a chunk source yields exactly that list. -/
theorem yields_listPop {β : Type} (l : List β) : Yields listPop l l := by
  induction l with
  | nil => exact Yields.nil rfl
  | cons x r ih => exact Yields.cons rfl ih

/-- Every chunk of the total encoder output has in-range payload. -/
theorem encChunks_wf (ps : List Pixel) : ∀ c ∈ encodeChunks ps, c.wfRange :=
  encYields_wf _ _ (encodeChunks_yields ps) rfl

/-- Every run chunk of the total encoder output has run in 1..62. -/
theorem encChunks_run_range (ps : List Pixel) :
    ∀ n, QoiChunk.run n ∈ encodeChunks ps → 1 ≤ n ∧ n ≤ 62 := by
  intro n hn
  have h := encChunks_wf ps _ hn
  simpa [QoiChunk.wfRange] using h

/-- The total encoder output has no two adjacent index chunks of one slot. -/
theorem encChunks_chain (ps : List Pixel) :
    List.Chain' NoSameIdx (encodeChunks ps) :=
  (encYields_chain _ _ (encodeChunks_yields ps) rfl
    (by simp [QoiChunkEncoder.new, CoderState.default])).1

/-- The semantic expansion of the total encoder output is the input. -/
theorem encChunks_expand (ps : List Pixel) (hps : ∀ p ∈ ps, p.wf) :
    expandAll CoderState.default (encodeChunks ps) = ps :=
  encYields_expand _ _ (encodeChunks_yields ps) rfl
    (by simp [QoiChunkEncoder.new, CoderState.default]) hps

/-- The buffered chunk decoder recovers the encoder output from its bytes,
for any trailing suffix that neither decodes nor starts with the footer
tail. -/
theorem encChunks_decodes (ps : List Pixel) (suffix : List Nat)
    (h1 : (chunkDecList suffix).1 = none)
    (h2 : suffix.take 7 ≠ QOI_FOOTER.drop 1) :
    Yields chunkDecStep
      (QoiChunkDecoder.new ((encodeChunks ps).flatMap QoiChunk.toBytes ++ suffix))
      (encodeChunks ps) := by
  refine yields_chunkDec_transport _ _ _ (pnInv_new 7 _) (pnObs_new 7 _) ?_
  refine yields_chunkDecList_of_chunks _ _ (encChunks_wf ps) ?_ h1 h2
  refine List.Chain'.imp ?_ (encChunks_chain ps)
  intro a b hab hcon
  exact hab 0 hcon.1 hcon.2

/-- Decoding a byte stream headed by `0x00`: footer check, else `INDEX(0)`. -/
theorem chunkDecList_zero (rest : List Nat) :
    chunkDecList (0 :: rest) =
      if rest.take 7 = QOI_FOOTER.drop 1 then (none, rest)
      else (some (QoiChunk.index 0), rest) := by
  by_cases hf : rest.take 7 = QOI_FOOTER.drop 1
  · rw [if_pos hf]
    simp [chunkDecList, hf]
  · rw [if_neg hf]
    rw [List.drop_one] at hf
    simp [chunkDecList, hf]

/-! ### The claims -/

/-- C1: for every well-formed header and every finite sequence of in-range
pixels, constructing the decoder on the encoder's byte output succeeds,
returns the header verbatim (width, height, channels and color space
preserved), and the returned pixel iterator yields exactly the input pixel
sequence. -/
theorem c1_full_round_trip (h : QoiHeader) (ps : List Pixel)
    (hwf : h.wf) (hps : ∀ p ∈ ps, p.wf) :
    qoiDecoderNew (qoiEncode h ps) =
      some (h, (CoderState.default, QoiChunkDecoder.new
        ((encodeChunks ps).flatMap QoiChunk.toBytes ++ QOI_FOOTER))) ∧
    Yields qoiPixStep
      ((CoderState.default, QoiChunkDecoder.new
        ((encodeChunks ps).flatMap QoiChunk.toBytes ++ QOI_FOOTER))) ps := by
  constructor
  · show qoiDecoderNew
      (h.toBytes ++ (encodeChunks ps).flatMap QoiChunk.toBytes ++ QOI_FOOTER) = _
    rw [List.append_assoc]
    exact qoiDecoderNew_toBytes h _ hwf
  · have hdec := encChunks_decodes ps QOI_FOOTER rfl (by decide)
    have hy := pix_yields chunkDecStep (encodeChunks ps) _ CoderState.default
      hdec (encChunks_run_range ps) rfl
    rw [encChunks_expand ps hps] at hy
    exact hy

/-- C1 witness: the round trip at a concrete header and a one-pixel image. -/
theorem c1_full_round_trip_witness :
    ((QoiHeader.mk 1 1 QoiChannels.rgb QoiColorSpace.sRgbWithLinearAlpha).wf ∧
      (∀ p ∈ [Pixel.start], p.wf)) ∧
    (qoiDecoderNew (qoiEncode
        (QoiHeader.mk 1 1 QoiChannels.rgb QoiColorSpace.sRgbWithLinearAlpha)
        [Pixel.start]) =
      some (QoiHeader.mk 1 1 QoiChannels.rgb QoiColorSpace.sRgbWithLinearAlpha,
        (CoderState.default, QoiChunkDecoder.new
          ((encodeChunks [Pixel.start]).flatMap QoiChunk.toBytes ++ QOI_FOOTER))) ∧
    Yields qoiPixStep
      ((CoderState.default, QoiChunkDecoder.new
        ((encodeChunks [Pixel.start]).flatMap QoiChunk.toBytes ++ QOI_FOOTER)))
      [Pixel.start]) :=
  ⟨⟨by decide, by decide⟩,
    c1_full_round_trip _ [Pixel.start] (by decide) (by decide)⟩

/-- C2: the chunk sequence the encoder emits on any pixel input, serialized
chunk by chunk and fed to the buffered chunk decoder, is reproduced
exactly. -/
theorem c2_chunk_round_trip (ps : List Pixel) :
    Yields chunkDecStep
      (QoiChunkDecoder.new ((encodeChunks ps).flatMap QoiChunk.toBytes))
      (encodeChunks ps) := by
  have h := encChunks_decodes ps [] rfl (by decide)
  rw [List.append_nil] at h
  exact h

/-- C3: header serialization is 14 bytes and parses back verbatim for every
well-formed header (any 32-bit width and height, including zero, accepted),
and parsing fails exactly on short input, wrong magic, a channels byte other
than 3 or 4, or a color-space byte other than 0 or 1. -/
theorem c3_header_codec (h : QoiHeader) (bytes : List Nat) (hwf : h.wf) :
    h.toBytes.length = 14 ∧
    qoiDecoderNew (h.toBytes ++ bytes) =
      some (h, (CoderState.default, QoiChunkDecoder.new bytes)) ∧
    (qoiDecoderNew bytes = none ↔
      (bytes.length < 14 ∨ bytes.take 4 ≠ QOI_MAGIC ∨
        ¬(bytes.getD 12 0 = 3 ∨ bytes.getD 12 0 = 4) ∨
        ¬(bytes.getD 13 0 = 0 ∨ bytes.getD 13 0 = 1))) :=
  ⟨header_toBytes_length h, qoiDecoderNew_toBytes h bytes hwf,
    qoiDecoderNew_none_iff bytes⟩

/-- C3 witness: the header codec at a concrete zero-sized header. -/
theorem c3_header_codec_witness :
    (QoiHeader.mk 0 0 QoiChannels.rgb QoiColorSpace.sRgbWithLinearAlpha).wf ∧
    ((QoiHeader.mk 0 0 QoiChannels.rgb
        QoiColorSpace.sRgbWithLinearAlpha).toBytes.length = 14 ∧
      qoiDecoderNew ((QoiHeader.mk 0 0 QoiChannels.rgb
          QoiColorSpace.sRgbWithLinearAlpha).toBytes ++ []) =
        some (QoiHeader.mk 0 0 QoiChannels.rgb QoiColorSpace.sRgbWithLinearAlpha,
          (CoderState.default, QoiChunkDecoder.new [])) ∧
      (qoiDecoderNew [] = none ↔
        (([] : List Nat).length < 14 ∨ ([] : List Nat).take 4 ≠ QOI_MAGIC ∨
          ¬(([] : List Nat).getD 12 0 = 3 ∨ ([] : List Nat).getD 12 0 = 4) ∨
          ¬(([] : List Nat).getD 13 0 = 0 ∨ ([] : List Nat).getD 13 0 = 1)))) :=
  ⟨by decide, c3_header_codec _ [] (by decide)⟩

/-- C4: every run chunk the encoder emits has its run value in 1..62, so its
serialized byte 192 + (run − 1) is never `0xFE` or `0xFF`; and 63 equal
pixels produce RUN(62) followed by RUN(1). -/
theorem c4_run_range (ps : List Pixel) (n : Nat)
    (hmem : QoiChunk.run n ∈ encodeChunks ps) :
    (1 ≤ n ∧ n ≤ 62) ∧
    (QoiChunk.run n).toBytes = [192 + (n - 1)] ∧
    (QoiChunk.run n).toBytes ≠ [0xFE] ∧ (QoiChunk.run n).toBytes ≠ [0xFF] ∧
    encodeChunks (List.replicate 63 Pixel.start) =
      [QoiChunk.run 62, QoiChunk.run 1] := by
  obtain ⟨h1, h62⟩ := encChunks_run_range ps n hmem
  have hb := toBytes_run n ⟨h1, h62⟩
  refine ⟨⟨h1, h62⟩, hb, ?_, ?_, by decide⟩
  · rw [hb]
    intro hc
    injection hc with hc1
    omega
  · rw [hb]
    intro hc
    injection hc with hc1
    omega

/-- C4 witness: a run chunk the encoder actually emits, at run length 2. -/
theorem c4_run_range_witness :
    QoiChunk.run 2 ∈ encodeChunks (List.replicate 2 Pixel.start) ∧
    ((1 ≤ 2 ∧ 2 ≤ 62) ∧
      (QoiChunk.run 2).toBytes = [192 + (2 - 1)] ∧
      (QoiChunk.run 2).toBytes ≠ [0xFE] ∧ (QoiChunk.run 2).toBytes ≠ [0xFF] ∧
      encodeChunks (List.replicate 63 Pixel.start) =
        [QoiChunk.run 62, QoiChunk.run 1]) :=
  ⟨by decide, c4_run_range (List.replicate 2 Pixel.start) 2 (by decide)⟩

/-- C5: on every pixel input, the chunk sequence the encoder emits never
contains two consecutive index chunks referring to the same slot. -/
theorem c5_no_consecutive_index (ps : List Pixel) :
    List.Chain' NoSameIdx (encodeChunks ps) :=
  encChunks_chain ps

/-- C6 (amended): when the candidate pixel's alpha differs from the previous
pixel's alpha, the selected chunk is never DIFF, LUMA or RGB; it is RGBA
unless the pixel matches its index-table slot (the index lookup precedes the
alpha test), in which case it is INDEX. -/
theorem c6_alpha_no_diff_luma (c : CoderState) (p : Pixel)
    (hne : p.a ≠ c.previous.a) :
    ((∀ dr dg db, chunkForPixel c p ≠ QoiChunk.diff dr dg db) ∧
      (∀ dg x y, chunkForPixel c p ≠ QoiChunk.luma dg x y) ∧
      (∀ r g b, chunkForPixel c p ≠ QoiChunk.rgb r g b)) ∧
    (c.index.getD p.pixelHash Pixel.zero = p →
      chunkForPixel c p = QoiChunk.index p.pixelHash) ∧
    (c.index.getD p.pixelHash Pixel.zero ≠ p →
      chunkForPixel c p = QoiChunk.rgba p.r p.g p.b p.a) := by
  simp only [chunkForPixel]
  by_cases hhit : c.index.getD p.pixelHash Pixel.zero = p
  · rw [if_pos hhit]
    exact ⟨⟨fun _ _ _ hc => QoiChunk.noConfusion hc,
        fun _ _ _ hc => QoiChunk.noConfusion hc,
        fun _ _ _ hc => QoiChunk.noConfusion hc⟩,
      fun _ => rfl, fun hmiss => absurd hhit hmiss⟩
  · rw [if_neg hhit, if_neg hne]
    exact ⟨⟨fun _ _ _ hc => QoiChunk.noConfusion hc,
        fun _ _ _ hc => QoiChunk.noConfusion hc,
        fun _ _ _ hc => QoiChunk.noConfusion hc⟩,
      fun hhit2 => absurd hhit2 hhit, fun _ => rfl⟩

/-- C6 witness: the amended statement at the default state and a transparent
black pixel (which hits index slot 0 of the zero-initialized table). -/
theorem c6_alpha_no_diff_luma_witness :
    (Pixel.mk 0 0 0 0).a ≠ CoderState.default.previous.a ∧
    (((∀ dr dg db, chunkForPixel CoderState.default (Pixel.mk 0 0 0 0) ≠
          QoiChunk.diff dr dg db) ∧
        (∀ dg x y, chunkForPixel CoderState.default (Pixel.mk 0 0 0 0) ≠
          QoiChunk.luma dg x y) ∧
        (∀ r g b, chunkForPixel CoderState.default (Pixel.mk 0 0 0 0) ≠
          QoiChunk.rgb r g b)) ∧
      (CoderState.default.index.getD (Pixel.mk 0 0 0 0).pixelHash Pixel.zero =
          Pixel.mk 0 0 0 0 →
        chunkForPixel CoderState.default (Pixel.mk 0 0 0 0) =
          QoiChunk.index (Pixel.mk 0 0 0 0).pixelHash) ∧
      (CoderState.default.index.getD (Pixel.mk 0 0 0 0).pixelHash Pixel.zero ≠
          Pixel.mk 0 0 0 0 →
        chunkForPixel CoderState.default (Pixel.mk 0 0 0 0) =
          QoiChunk.rgba 0 0 0 0)) :=
  ⟨by decide, c6_alpha_no_diff_luma CoderState.default (Pixel.mk 0 0 0 0)
    (by decide)⟩

/-- C6 counterexample to the original claim: the first pixel of
`[(0,0,0,0)]` has alpha 0 while the implicit previous pixel has alpha 255,
yet the encoder emits `INDEX(0)` (the transparent black pixel hashes to the
zero-initialized slot 0), not an RGBA chunk. -/
theorem c6_alpha_counterexample :
    (Pixel.mk 0 0 0 0).a ≠ CoderState.default.previous.a ∧
    encodeChunks [Pixel.mk 0 0 0 0] = [QoiChunk.index 0] ∧
    ∀ r g b a, QoiChunk.index 0 ≠ QoiChunk.rgba r g b a := by
  refine ⟨by decide, by rfl, ?_⟩
  intro r g b a hc
  exact QoiChunk.noConfusion hc

/-- C7: on a byte equal to `0x00`, the chunk decoder ends its output without
consuming the peeked bytes exactly when the next seven bytes are
`[0,0,0,0,0,0,1]`; in every other case the byte decodes to `INDEX(0)`
(consuming only the `0x00` byte). -/
theorem c7_footer_check (s : QoiChunkDecoder) (rest : List Nat)
    (hinv : PNInv s.bytes) (hobs : pnObs s.bytes = 0 :: rest) :
    (rest.take 7 = [0, 0, 0, 0, 0, 0, 1] →
      (chunkDecStep s).1 = none ∧
        pnObs ((chunkDecStep s).2).bytes = rest) ∧
    (rest.take 7 ≠ [0, 0, 0, 0, 0, 0, 1] →
      (chunkDecStep s).1 = some (QoiChunk.index 0) ∧
        pnObs ((chunkDecStep s).2).bytes = rest) := by
  obtain ⟨s2, he, ho2, hi2⟩ := chunkDecStep_bridge s hinv
  rw [hobs, chunkDecList_zero] at he ho2
  constructor
  · intro hf
    have hf2 : rest.take 7 = QOI_FOOTER.drop 1 := hf
    rw [if_pos hf2] at he ho2
    rw [he]
    exact ⟨rfl, ho2⟩
  · intro hf
    have hf2 : ¬ rest.take 7 = QOI_FOOTER.drop 1 := hf
    rw [if_neg hf2] at he ho2
    rw [he]
    exact ⟨rfl, ho2⟩

/-- C7 witness: the footer check at a fresh decoder holding exactly the
8-byte footer. -/
theorem c7_footer_check_witness :
    (PNInv (QoiChunkDecoder.new QOI_FOOTER).bytes ∧
      pnObs (QoiChunkDecoder.new QOI_FOOTER).bytes =
        0 :: [0, 0, 0, 0, 0, 0, 1]) ∧
    (([0, 0, 0, 0, 0, 0, 1] : List Nat).take 7 = [0, 0, 0, 0, 0, 0, 1] →
      (chunkDecStep (QoiChunkDecoder.new QOI_FOOTER)).1 = none ∧
        pnObs ((chunkDecStep (QoiChunkDecoder.new QOI_FOOTER)).2).bytes =
          [0, 0, 0, 0, 0, 0, 1]) ∧
    (([0, 0, 0, 0, 0, 0, 1] : List Nat).take 7 ≠ [0, 0, 0, 0, 0, 0, 1] →
      (chunkDecStep (QoiChunkDecoder.new QOI_FOOTER)).1 =
          some (QoiChunk.index 0) ∧
        pnObs ((chunkDecStep (QoiChunkDecoder.new QOI_FOOTER)).2).bytes =
          [0, 0, 0, 0, 0, 0, 1]) :=
  ⟨⟨pnInv_new 7 QOI_FOOTER, rfl⟩,
    c7_footer_check (QoiChunkDecoder.new QOI_FOOTER) [0, 0, 0, 0, 0, 0, 1]
      (pnInv_new 7 QOI_FOOTER) rfl⟩

/-- C8: driven by any chunk source, the pixel decoder expands each chunk to
its semantic pixels — a run chunk of length n yields the previous pixel
exactly n times, every other chunk exactly one pixel — so the decoded pixel
count is the sum of the chunks' semantic counts. -/
theorem c8_pixel_counts (chunks : List QoiChunk) (c : CoderState)
    (hr : ∀ n, QoiChunk.run n ∈ chunks → 1 ≤ n ∧ n ≤ 62) (h0 : c.run = 0) :
    Yields (pixStepG listPop) ((c, chunks)) (expandAll c chunks) ∧
    (expandAll c chunks).length = semCount chunks ∧
    (∀ n, 1 ≤ n → n ≤ 62 →
      Yields (pixStepG listPop) ((c, [QoiChunk.run n]))
        (List.replicate n c.previous)) := by
  refine ⟨pix_yields _ _ _ _ (yields_listPop chunks) hr h0,
    expandAll_length _ _, ?_⟩
  intro n hn1 hn62
  have hrs : ∀ m, QoiChunk.run m ∈ [QoiChunk.run n] → 1 ≤ m ∧ m ≤ 62 := by
    intro m hm
    simp only [List.mem_singleton] at hm
    injection hm with hmn
    omega
  have hy := pix_yields listPop [QoiChunk.run n] [QoiChunk.run n] c
    (yields_listPop _) hrs h0
  have hexp : expandAll c [QoiChunk.run n] = List.replicate n c.previous := by
    show (expandChunk c (QoiChunk.run n)).1 ++
      expandAll (expandChunk c (QoiChunk.run n)).2 [] = _
    simp [expandChunk, expandAll]
  rw [hexp] at hy
  exact hy

/-- C8 witness: the pixel-count facts at a single run chunk of length 1. -/
theorem c8_pixel_counts_witness :
    ((∀ n, QoiChunk.run n ∈ [QoiChunk.run 1] → 1 ≤ n ∧ n ≤ 62) ∧
      CoderState.default.run = 0) ∧
    (Yields (pixStepG listPop) ((CoderState.default, [QoiChunk.run 1]))
        (expandAll CoderState.default [QoiChunk.run 1]) ∧
      (expandAll CoderState.default [QoiChunk.run 1]).length =
        semCount [QoiChunk.run 1] ∧
      (∀ n, 1 ≤ n → n ≤ 62 →
        Yields (pixStepG listPop) ((CoderState.default, [QoiChunk.run n]))
          (List.replicate n CoderState.default.previous))) :=
  ⟨⟨by
      intro n hn
      simp only [List.mem_singleton] at hn
      injection hn with h
      omega,
    rfl⟩,
    c8_pixel_counts [QoiChunk.run 1] CoderState.default
      (by
        intro n hn
        simp only [List.mem_singleton] at hn
        injection hn with h
        omega)
      rfl⟩

/-- C9: over any upstream sequence and any interleaving of peek and next
calls on the seven-slot adapter, the items consumed so far followed by the
still observable sequence reconstitute the upstream sequence (nothing lost,
duplicated or reordered), and a peek leaves the observable sequence
unchanged while returning the next seven items exactly when that many
remain. -/
theorem c9_peekn_order (upstream : List Nat) (ops : List Bool) :
    (pnRun ops (PeekN.new 7 upstream)).1 ++
      pnObs (pnRun ops (PeekN.new 7 upstream)).2 = upstream ∧
    (PeekN.peekFn (pnRun ops (PeekN.new 7 upstream)).2).1 =
      (if 7 ≤ (pnObs (pnRun ops (PeekN.new 7 upstream)).2).length
        then some ((pnObs (pnRun ops (PeekN.new 7 upstream)).2).take 7)
        else none) ∧
    pnObs (PeekN.peekFn (pnRun ops (PeekN.new 7 upstream)).2).2 =
      pnObs (pnRun ops (PeekN.new 7 upstream)).2 := by
  obtain ⟨h1, h2⟩ := pnRun_spec ops (PeekN.new 7 upstream) (pnInv_new 7 upstream)
  obtain ⟨p1, p2, p3⟩ := pnPeek_spec _ h2
  rw [pnObs_new] at h1
  exact ⟨h1, p3, p1⟩

/-- C10: after the chunk decoder ends its output on recognizing the footer,
the seven peeked footer bytes stay buffered, so a further next call is not
fused: it decodes the second footer byte `0x00` as `INDEX(0)`. -/
theorem c10_not_fused (s : QoiChunkDecoder) (t : List Nat)
    (hinv : PNInv s.bytes)
    (hobs : pnObs s.bytes = 0 :: 0 :: 0 :: 0 :: 0 :: 0 :: 0 :: 1 :: t) :
    (chunkDecStep s).1 = none ∧
    pnObs ((chunkDecStep s).2).bytes = 0 :: 0 :: 0 :: 0 :: 0 :: 0 :: 1 :: t ∧
    (chunkDecStep ((chunkDecStep s).2)).1 = some (QoiChunk.index 0) := by
  obtain ⟨s2, he, ho2, hi2⟩ := chunkDecStep_bridge s hinv
  rw [hobs, chunkDecList_zero, if_pos (by rfl)] at he ho2
  obtain ⟨s3, he2, ho3, hi3⟩ := chunkDecStep_bridge s2 hi2
  rw [ho2, chunkDecList_zero] at he2
  have hne : ¬ (((0 : Nat) :: 0 :: 0 :: 0 :: 0 :: 1 :: t).take 7 =
      QOI_FOOTER.drop 1) := by
    intro hc
    rw [show ((0 : Nat) :: 0 :: 0 :: 0 :: 0 :: 1 :: t).take 7 =
      0 :: 0 :: 0 :: 0 :: 0 :: 1 :: t.take 1 from rfl] at hc
    simp [QOI_FOOTER] at hc
  rw [if_neg hne] at he2
  refine ⟨by rw [he], by rw [he]; exact ho2, ?_⟩
  show (chunkDecStep ((chunkDecStep s).2)).1 = some (QoiChunk.index 0)
  rw [he]
  show (chunkDecStep s2).1 = some (QoiChunk.index 0)
  rw [he2]

/-- C10 witness: a fresh decoder holding exactly the 8-byte footer. -/
theorem c10_not_fused_witness :
    (PNInv (QoiChunkDecoder.new QOI_FOOTER).bytes ∧
      pnObs (QoiChunkDecoder.new QOI_FOOTER).bytes =
        0 :: 0 :: 0 :: 0 :: 0 :: 0 :: 0 :: 1 :: []) ∧
    ((chunkDecStep (QoiChunkDecoder.new QOI_FOOTER)).1 = none ∧
      pnObs ((chunkDecStep (QoiChunkDecoder.new QOI_FOOTER)).2).bytes =
        0 :: 0 :: 0 :: 0 :: 0 :: 0 :: 1 :: [] ∧
      (chunkDecStep ((chunkDecStep (QoiChunkDecoder.new QOI_FOOTER)).2)).1 =
        some (QoiChunk.index 0)) :=
  ⟨⟨pnInv_new 7 QOI_FOOTER, rfl⟩,
    c10_not_fused (QoiChunkDecoder.new QOI_FOOTER) []
      (pnInv_new 7 QOI_FOOTER) rfl⟩

end Arqoii
